import Mathlib

/-!
Verification development for the `file-explorer` package
(`exploreFilesAsync` in `a4s-bak-restore.ts`).

The walker is embedded as a small-step state machine at the granularity of
JavaScript event-loop suspension points: each worker runs atomically from the
top of its `while (true)` loop until it either initiates an asynchronous
filesystem operation (`fs.readFile`, `fs.readdir`), parks on the worker-waiter
queue, or returns.  Separate actions deliver I/O completions, resume woken
workers, and run the consumer-facing generator loop, so arbitrary event-loop
interleavings are covered by quantifying over action sequences.

The filesystem is modelled as a finite tree of named nodes; `file none` and
`dir none` denote files/directories whose read/listing fails with an I/O
error, and `other` denotes directory entries that are neither regular files
nor directories (symlinks, FIFOs, sockets).
-/

namespace FileExplorer

/-- Errors are represented by their message strings. -/
abbrev Err := String

/-- A filesystem path, as the list of components below (and including) the
root prefix.  `path.join dir name` from the source is list append of one
component. -/
abbrev FPath := List String

/-- A filesystem node.  `file none` is a file whose read fails; `dir none` is
a directory whose listing fails; `other` is a directory entry that is neither
a regular file nor a directory. -/
inductive FSNode where
  | file (content : Option String)
  | dir (entries : Option (List (String × FSNode)))
  | other

/-- Mirrors `FileWithoutContents` from the source. -/
structure FileWithoutContents where
  path : FPath
deriving DecidableEq

/-- Mirrors `FileWithContents` from the source; the `FileReader` capability is
represented by the decoded text it yields. -/
structure FileWithContents where
  path : FPath
  contents : String
deriving DecidableEq

/-- Events recorded when the walker touches the filesystem or calls a
caller-supplied predicate; used to state the no-I/O and never-touched
properties. -/
inductive IOEvent where
  | readdirEv (p : FPath)
  | readFileEv (p : FPath)
  | evalDirPred (p : FPath)
  | evalFilePred (p : FPath)
  | evalYieldPred (p : FPath)
deriving DecidableEq

/-- The program counter of one worker: at the top of its loop, suspended on an
asynchronous filesystem call, parked on the waiter queue, woken but not yet
resumed, or returned. -/
inductive WorkerState where
  | atTop
  | awaitingRead (f : FileWithoutContents)
  | awaitingReaddir (p : FPath)
  | parked
  | woken
  | finished
deriving DecidableEq

/-- The state of the consumer-facing generator loop. -/
inductive GenState where
  | ready
  | suspended
  | notified
  | ended
  | failed (e : Err)
deriving DecidableEq

/-- The shared run state of one `exploreFilesAsync` run: the five stage
queues, the output buffer, the synchronization primitives, the worker program
counters, the generator state, the records already delivered to the caller,
and a log of filesystem/predicate touches. -/
structure MState where
  qYieldCheck : List FileWithContents
  qRead : List FileWithoutContents
  qFileCheck : List FileWithoutContents
  qDirStat : List FPath
  qDirCheck : List FPath
  outputBuffer : List FileWithContents
  activeWorkers : Int
  isDone : Bool
  error : Option Err
  workers : List WorkerState
  genState : GenState
  yielded : List FileWithContents
  ioLog : List IOEvent
deriving DecidableEq

/-- The configuration of one run: root path, filesystem tree rooted there,
and the three caller-supplied predicates (`shouldYieldFile` optional).
Predicates return `Except` so that throwing predicates can be modelled. -/
structure Config where
  root : FPath
  fs : FSNode
  shouldExploreDir : FPath → Except Err Bool
  shouldReadFile : FileWithoutContents → Except Err Bool
  shouldYieldFile : Option (FileWithContents → Except Err Bool)

/-- The effective yield predicate: the destructuring default
`shouldYieldFile = () => true` when the option is omitted. -/
def yEff (c : Config) (f : FileWithContents) : Except Err Bool :=
  match c.shouldYieldFile with
  | none => Except.ok true
  | some g => g f

/-- Mirrors `ExploreFileArgs` from the source.  `workerCount` is a JS number,
modelled as a rational so that non-integer arguments are representable. -/
structure ExploreFileArgs where
  rootDir : FPath
  shouldExploreDir : FPath → Except Err Bool
  shouldReadFile : FileWithoutContents → Except Err Bool
  shouldYieldFile : Option (FileWithContents → Except Err Bool) := none
  workerCount : Option Rat := none

/-- Mirrors `MAX_WORKER_COUNT` from the source. -/
def MAX_WORKER_COUNT : Int := 8

/-- Render a path for error messages. -/
def pathStr (p : FPath) : String := String.intercalate "/" p

/-- Look up a directory entry by name (first match). -/
def findEntry (nm : String) (es : List (String × FSNode)) : Option FSNode :=
  match es.find? (fun e => e.1 = nm) with
  | some e => some e.2
  | none => none

/-- Walk a relative path down a tree. -/
def walk : FSNode → FPath → Option FSNode
  | n, [] => some n
  | FSNode.dir (some es), nm :: rest =>
    match findEntry nm es with
    | some ch => walk ch rest
    | none => none
  | _, _ => none

/-- Strip a root from the front of a path, if possible. -/
def stripRoot : FPath → FPath → Option FPath
  | [], p => some p
  | r :: rs, q :: qs => if r = q then stripRoot rs qs else none
  | _ :: _, [] => none

/-- Resolve an absolute path against the configured root and tree. -/
def resolveAt (c : Config) (p : FPath) : Option FSNode :=
  match stripRoot c.root p with
  | some rel => walk c.fs rel
  | none => none

/-- Semantics of `fs.readFile`: succeeds exactly on readable regular files. -/
def readFileSem (c : Config) (p : FPath) : Except Err String :=
  match resolveAt c p with
  | some (FSNode.file (some t)) => Except.ok t
  | _ => Except.error ("EREAD: " ++ pathStr p)

/-- Semantics of `fs.readdir` with `withFileTypes`: succeeds exactly on
listable directories, returning the entries with their types. -/
def readdirSem (c : Config) (p : FPath) : Except Err (List (String × FSNode)) :=
  match resolveAt c p with
  | some (FSNode.dir (some es)) => Except.ok es
  | _ => Except.error ("EREADDIR: " ++ pathStr p)

/-- Mirrors `notifyWorkers`: wake every parked worker. -/
def notifyOne : WorkerState → WorkerState
  | WorkerState.parked => WorkerState.woken
  | w => w

/-- Wake all parked workers (they race for the new work). -/
def notifyWorkersF (ws : List WorkerState) : List WorkerState :=
  ws.map notifyOne

/-- Mirrors `notifyGenerator`: resolve the single generator waiter, if any. -/
def notifyGenF : GenState → GenState
  | GenState.suspended => GenState.notified
  | g => g

/-- Mirrors `allQueuesEmpty` computed in the termination check. -/
def allQueuesEmptyB (s : MState) : Bool :=
  s.qYieldCheck.isEmpty && s.qRead.isEmpty && s.qFileCheck.isEmpty &&
    s.qDirStat.isEmpty && s.qDirCheck.isEmpty

/-- One atomic execution of worker `i` from the top of its loop: the error
check, then the five stage dispatches in priority order, then the no-work
bookkeeping.  Synchronous stages loop back to the top in the same JS
microtask; the two I/O stages suspend (modelled by the `awaiting` states);
the no-work branch decrements the active count and either declares
completion, or parks. -/
def wstepF (c : Config) (s : MState) (i : Nat) : MState :=
  match s.workers.get? i with
  | some WorkerState.atTop =>
    if s.error.isSome then
      { s with workers := s.workers.set i WorkerState.finished }
    else
      match s.qYieldCheck with
      | r :: restYC =>
        match yEff c r with
        | Except.ok true =>
          { s with qYieldCheck := restYC,
                   ioLog := s.ioLog ++ [IOEvent.evalYieldPred r.path],
                   outputBuffer := s.outputBuffer ++ [r],
                   genState := notifyGenF s.genState }
        | Except.ok false =>
          { s with qYieldCheck := restYC,
                   ioLog := s.ioLog ++ [IOEvent.evalYieldPred r.path] }
        | Except.error e =>
          { s with qYieldCheck := restYC,
                   ioLog := s.ioLog ++ [IOEvent.evalYieldPred r.path],
                   error := some e, genState := notifyGenF s.genState }
      | [] =>
        match s.qRead with
        | f :: restR =>
          { s with qRead := restR,
                   ioLog := s.ioLog ++ [IOEvent.readFileEv f.path],
                   workers := s.workers.set i (WorkerState.awaitingRead f) }
        | [] =>
          match s.qFileCheck with
          | f :: restFC =>
            match c.shouldReadFile f with
            | Except.ok true =>
              { s with qFileCheck := restFC,
                       ioLog := s.ioLog ++ [IOEvent.evalFilePred f.path],
                       qRead := s.qRead ++ [f],
                       workers := notifyWorkersF s.workers }
            | Except.ok false =>
              { s with qFileCheck := restFC,
                       ioLog := s.ioLog ++ [IOEvent.evalFilePred f.path] }
            | Except.error e =>
              { s with qFileCheck := restFC,
                       ioLog := s.ioLog ++ [IOEvent.evalFilePred f.path],
                       error := some e, genState := notifyGenF s.genState }
          | [] =>
            match s.qDirStat with
            | p :: restDS =>
              { s with qDirStat := restDS,
                       ioLog := s.ioLog ++ [IOEvent.readdirEv p],
                       workers := s.workers.set i (WorkerState.awaitingReaddir p) }
            | [] =>
              match s.qDirCheck with
              | p :: restDC =>
                match c.shouldExploreDir p with
                | Except.ok true =>
                  { s with qDirCheck := restDC,
                           ioLog := s.ioLog ++ [IOEvent.evalDirPred p],
                           qDirStat := s.qDirStat ++ [p],
                           workers := notifyWorkersF s.workers }
                | Except.ok false =>
                  { s with qDirCheck := restDC,
                           ioLog := s.ioLog ++ [IOEvent.evalDirPred p] }
                | Except.error e =>
                  { s with qDirCheck := restDC,
                           ioLog := s.ioLog ++ [IOEvent.evalDirPred p],
                           error := some e, genState := notifyGenF s.genState,
                           workers := s.workers.set i WorkerState.finished }
              | [] =>
                if s.activeWorkers - 1 = 0 ∧ allQueuesEmptyB s = true then
                  { s with activeWorkers := s.activeWorkers - 1,
                           isDone := true,
                           genState := notifyGenF s.genState,
                           workers := (notifyWorkersF s.workers).set i WorkerState.finished }
                else
                  { s with activeWorkers := s.activeWorkers - 1,
                           workers := s.workers.set i WorkerState.parked }
  | _ => s

/-- Delivery of an `fs.readFile` completion to worker `i`: on success the
record is pushed to yield-check and idle workers are woken; on failure the
error slot is written (unconditionally) and the generator notified.  Either
way the worker continues at the top of its loop. -/
def ioReadF (c : Config) (s : MState) (i : Nat) : MState :=
  match s.workers.get? i with
  | some (WorkerState.awaitingRead f) =>
    match readFileSem c f.path with
    | Except.ok t =>
      { s with qYieldCheck := s.qYieldCheck ++ [⟨f.path, t⟩],
               workers := (notifyWorkersF s.workers).set i WorkerState.atTop }
    | Except.error e =>
      { s with error := some e,
               genState := notifyGenF s.genState,
               workers := s.workers.set i WorkerState.atTop }
  | _ => s

/-- Process the entries returned by `fs.readdir`: sub-directories go to
directory-check, regular files to file-check, anything else is skipped. -/
def pushEntries (p : FPath) (es : List (String × FSNode)) (s : MState) : MState :=
  es.foldl
    (fun acc e =>
      match e.2 with
      | FSNode.dir _ => { acc with qDirCheck := acc.qDirCheck ++ [p ++ [e.1]] }
      | FSNode.file _ => { acc with qFileCheck := acc.qFileCheck ++ [⟨p ++ [e.1]⟩] }
      | FSNode.other => acc)
    s

/-- Delivery of an `fs.readdir` completion to worker `i`. -/
def ioListF (c : Config) (s : MState) (i : Nat) : MState :=
  match s.workers.get? i with
  | some (WorkerState.awaitingReaddir p) =>
    match readdirSem c p with
    | Except.ok es =>
      let s1 := pushEntries p es s
      let ws := if es.length > 0 then notifyWorkersF s1.workers else s1.workers
      { s1 with workers := ws.set i WorkerState.atTop }
    | Except.error e =>
      { s with error := some e,
               genState := notifyGenF s.genState,
               workers := s.workers.set i WorkerState.atTop }
  | _ => s

/-- Resumption of a woken worker: it increments the active count and loops. -/
def wakeF (s : MState) (i : Nat) : MState :=
  match s.workers.get? i with
  | some WorkerState.woken =>
    { s with activeWorkers := s.activeWorkers + 1,
             workers := s.workers.set i WorkerState.atTop }
  | _ => s

/-- One execution of the generator loop body (a consumer pull, or the
resumption after a worker notification): pop-and-yield if the buffer is
non-empty, otherwise throw the recorded error, end on `done`, or park as the
generator waiter. -/
def genStepF (s : MState) : MState :=
  if s.genState = GenState.ready ∨ s.genState = GenState.notified then
    match s.outputBuffer with
    | r :: rest =>
      { s with outputBuffer := rest, yielded := s.yielded ++ [r],
               genState := GenState.ready }
    | [] =>
      match s.error with
      | some e => { s with genState := GenState.failed e }
      | none =>
        if s.isDone then { s with genState := GenState.ended }
        else { s with genState := GenState.suspended }
  else s

/-- A scheduling action: run a worker from its loop top, deliver one of the
two kinds of I/O completion, resume a woken worker, or run the generator. -/
inductive Action where
  | work (i : Nat)
  | ioRead (i : Nat)
  | ioList (i : Nat)
  | wake (i : Nat)
  | pull
deriving DecidableEq

/-- Apply one scheduling action (invalid actions are no-ops). -/
def applyAction (c : Config) (s : MState) : Action → MState
  | Action.work i => wstepF c s i
  | Action.ioRead i => ioReadF c s i
  | Action.ioList i => ioListF c s i
  | Action.wake i => wakeF s i
  | Action.pull => genStepF s

/-- Run a sequence of scheduling actions. -/
def runActions (c : Config) (s : MState) : List Action → MState
  | [] => s
  | a :: rest => runActions c (applyAction c s a) rest

/-- The shared state exactly as `exploreFilesAsync` sets it up before starting
the workers: the directory-stat queue is seeded with the root, everything
else is empty, and `activeWorkers` counts the `n` started workers. -/
def initState (c : Config) (n : Nat) : MState where
  qYieldCheck := []
  qRead := []
  qFileCheck := []
  qDirStat := [c.root]
  qDirCheck := []
  outputBuffer := []
  activeWorkers := (n : Int)
  isDone := false
  error := none
  workers := List.replicate n WorkerState.atTop
  genState := GenState.ready
  yielded := []
  ioLog := []

/-- The configuration `exploreFilesAsync` runs under, as destructured from
its options. -/
def configOf (fs : FSNode) (o : ExploreFileArgs) : Config where
  root := o.rootDir
  fs := fs
  shouldExploreDir := o.shouldExploreDir
  shouldReadFile := o.shouldReadFile
  shouldYieldFile := o.shouldYieldFile

/-- Mirrors the validation logic of `exploreFilesAsync` (`workerCount`
defaults to 1; `!Number.isInteger(workerCount) || workerCount < 1` throws;
otherwise the effective worker count is `Math.min(workerCount,
MAX_WORKER_COUNT)`), then builds the initial shared state. -/
def exploreFilesInit (fs : FSNode) (o : ExploreFileArgs) :
    Except Err (Config × MState) :=
  if ¬ ((o.workerCount.getD 1).den = 1) ∨ o.workerCount.getD 1 < 1 then
    Except.error "workerCount must be a positive integer."
  else
    Except.ok (configOf fs o,
      initState (configOf fs o)
        (min (o.workerCount.getD 1).num MAX_WORKER_COUNT).toNat)

/-- Run `exploreFilesAsync` under a given schedule: validation, then the
action sequence on the initial state. -/
def exploreFilesRun (fs : FSNode) (o : ExploreFileArgs) (acts : List Action) :
    Except Err MState :=
  match exploreFilesInit fs o with
  | Except.error e => Except.error e
  | Except.ok (c, s0) => Except.ok (runActions c s0 acts)

/-! ## Tree well-formedness -/

/-- No duplicates in a list of entry names. -/
def nodupStr : List String → Bool
  | [] => true
  | x :: xs => (!(xs.contains x)) && nodupStr xs

mutual

/-- Every directory of the tree has pairwise-distinct entry names (as on a
real filesystem). -/
def nodupB : FSNode → Bool
  | FSNode.dir (some es) => nodupStr (es.map Prod.fst) && nodupEntriesB es
  | _ => true

/-- Helper of `nodupB` over an entry list. -/
def nodupEntriesB : List (String × FSNode) → Bool
  | [] => true
  | e :: rest => nodupB e.2 && nodupEntriesB rest

end

mutual

/-- Every file of the tree is readable and every directory listable: no I/O
operation on the tree fails. -/
def totalB : FSNode → Bool
  | FSNode.file (some _) => true
  | FSNode.file none => false
  | FSNode.dir (some es) => totalEntriesB es
  | FSNode.dir none => false
  | FSNode.other => true

/-- Helper of `totalB` over an entry list. -/
def totalEntriesB : List (String × FSNode) → Bool
  | [] => true
  | e :: rest => totalB e.2 && totalEntriesB rest

end

/-! ## The eligible-file set -/

/-- The contribution of one regular file at path `q` with content `t`: it is
kept exactly when `shouldReadFile` accepts the path and the effective
`shouldYieldFile` accepts the record. -/
def fileGate (c : Config) (q : FPath) (t : String) : Multiset FPath :=
  match c.shouldReadFile ⟨q⟩ with
  | Except.ok true =>
    match yEff c ⟨q, t⟩ with
    | Except.ok true => {q}
    | _ => 0
  | _ => 0

mutual

/-- The files the walker should produce from the subtree at `p`, given that
the directory at `p` is already approved for listing: files pass the
file/yield gates, sub-directories are recursed into exactly when
`shouldExploreDir` accepts them, other entry kinds are skipped. -/
def contribNode (c : Config) : FSNode → FPath → Multiset FPath
  | FSNode.dir (some es), p => contribEntries c p es
  | _, _ => 0

/-- Helper of `contribNode` over an entry list of the directory at `p`. -/
def contribEntries (c : Config) (p : FPath) : List (String × FSNode) → Multiset FPath
  | [] => 0
  | (nm, FSNode.file (some t)) :: rest =>
    fileGate c (p ++ [nm]) t + contribEntries c p rest
  | (nm, FSNode.dir d) :: rest =>
    (match c.shouldExploreDir (p ++ [nm]) with
     | Except.ok true => contribNode c (FSNode.dir d) (p ++ [nm])
     | _ => 0) + contribEntries c p rest
  | _ :: rest => contribEntries c p rest

end

/-- The eligible files of a run: files below the root all of whose strict
ancestors below the root pass `shouldExploreDir`, that pass `shouldReadFile`,
and whose record passes the effective `shouldYieldFile`.  The root itself is
not gated (it is seeded directly into the directory-stat queue). -/
def eligibleM (c : Config) : Multiset FPath :=
  contribNode c c.fs c.root

/-- Modelled from the claim's words, for comparison with `eligibleM`: the set
of files all of whose ancestor directories, including the root itself,
satisfy `shouldExploreDir` (plus the file and yield gates). -/
def claimedEligibleM (c : Config) : Multiset FPath :=
  match c.shouldExploreDir c.root with
  | Except.ok true => contribNode c c.fs c.root
  | _ => 0

/-! ## Pending-work accounting -/

/-- Sum of a list of multisets. -/
def msum : List (Multiset FPath) → Multiset FPath
  | [] => 0
  | m :: rest => m + msum rest

/-- The multiset of paths of a list of records. -/
def pathsM (l : List FileWithContents) : Multiset FPath :=
  msum (l.map (fun r => ({r.path} : Multiset FPath)))

/-- Contribution of a yield-check task. -/
def ycContrib (c : Config) (r : FileWithContents) : Multiset FPath :=
  match yEff c r with
  | Except.ok true => {r.path}
  | _ => 0

/-- Contribution of a read task at path `q`. -/
def rdContrib (c : Config) (q : FPath) : Multiset FPath :=
  match resolveAt c q with
  | some (FSNode.file (some t)) => ycContrib c ⟨q, t⟩
  | _ => 0

/-- Contribution of a file-check task. -/
def fcContrib (c : Config) (f : FileWithoutContents) : Multiset FPath :=
  match c.shouldReadFile f with
  | Except.ok true => rdContrib c f.path
  | _ => 0

/-- Contribution of a directory-stat task at path `p`. -/
def dsContrib (c : Config) (p : FPath) : Multiset FPath :=
  match resolveAt c p with
  | some n => contribNode c n p
  | none => 0

/-- Contribution of a directory-check task at path `p`. -/
def dcContrib (c : Config) (p : FPath) : Multiset FPath :=
  match c.shouldExploreDir p with
  | Except.ok true => dsContrib c p
  | _ => 0

/-- Contribution of the in-flight I/O of one worker. -/
def wContrib (c : Config) : WorkerState → Multiset FPath
  | WorkerState.awaitingRead f => rdContrib c f.path
  | WorkerState.awaitingReaddir p => dsContrib c p
  | _ => 0

/-- All file paths the run has produced or can still produce: delivered
records, buffered records, and the contributions of every queued task and
every in-flight worker I/O. -/
def gather (c : Config) (s : MState) : Multiset FPath :=
  pathsM s.yielded + pathsM s.outputBuffer +
    msum (s.qYieldCheck.map (ycContrib c)) +
    msum (s.qRead.map (fun f => rdContrib c f.path)) +
    msum (s.qFileCheck.map (fcContrib c)) +
    msum (s.qDirStat.map (dsContrib c)) +
    msum (s.qDirCheck.map (dcContrib c)) +
    msum (s.workers.map (wContrib c))

/-! ## Invariants -/

/-- A worker counted by the `activeWorkers` counter: at its loop top or
suspended on an I/O operation (parked, woken-but-not-resumed and returned
workers have given up or not yet re-taken their count). -/
def isLive : WorkerState → Bool
  | WorkerState.atTop => true
  | WorkerState.awaitingRead _ => true
  | WorkerState.awaitingReaddir _ => true
  | _ => false

/-- A worker suspended on an I/O operation. -/
def isAwaitingB : WorkerState → Bool
  | WorkerState.awaitingRead _ => true
  | WorkerState.awaitingReaddir _ => true
  | _ => false

/-- Number of live workers. -/
def countLive (s : MState) : Nat :=
  s.workers.countP (fun w => isLive w)

/-- No worker is suspended on an I/O operation. -/
def noAwaitP (s : MState) : Prop :=
  ∀ w ∈ s.workers, isAwaitingB w = false

/-- The synchronization invariant of the shared run state: once `done`, the
queues are empty and no I/O is in flight; without an error the active-worker
counter counts exactly the live workers; an error pins the counter at one or
more; and a state with no error, no active worker and empty queues must
already be `done`. -/
structure InvB (s : MState) : Prop where
  doneEmpty : s.isDone = true → allQueuesEmptyB s = true ∧ noAwaitP s
  count : s.error = none → s.activeWorkers = (countLive s : Int)
  errActive : s.error ≠ none → 1 ≤ s.activeWorkers
  emptyDone : s.error = none → s.activeWorkers = 0 →
    allQueuesEmptyB s = true → s.isDone = true

/-- Typing of a worker state: in-flight reads are on regular files, in-flight
listings on the root or on directories. -/
def workerOkT (c : Config) : WorkerState → Prop
  | WorkerState.awaitingRead f => ∃ ct, resolveAt c f.path = some (FSNode.file ct)
  | WorkerState.awaitingReaddir p =>
    p = c.root ∨ ∃ d, resolveAt c p = some (FSNode.dir d)
  | _ => True

/-- Typing of a logged event: every touched path is the root, a directory or
a regular file as the touching stage expects. -/
def eventOkT (c : Config) : IOEvent → Prop
  | IOEvent.readdirEv p => p = c.root ∨ ∃ d, resolveAt c p = some (FSNode.dir d)
  | IOEvent.evalDirPred p => ∃ d, resolveAt c p = some (FSNode.dir d)
  | IOEvent.readFileEv p => ∃ ct, resolveAt c p = some (FSNode.file ct)
  | IOEvent.evalFilePred p => ∃ ct, resolveAt c p = some (FSNode.file ct)
  | IOEvent.evalYieldPred p => ∃ ct, resolveAt c p = some (FSNode.file ct)

/-- The queue-typing invariant: every path the run ever holds or touches is
of the node kind its stage expects; in particular no path of an `other` node
(symlink, FIFO, socket) ever enters a queue, a predicate, a read, the output
buffer, the delivered records or the touch log. -/
structure TypInv (c : Config) (s : MState) : Prop where
  ds : ∀ p ∈ s.qDirStat, p = c.root ∨ ∃ d, resolveAt c p = some (FSNode.dir d)
  dc : ∀ p ∈ s.qDirCheck, ∃ d, resolveAt c p = some (FSNode.dir d)
  fc : ∀ f ∈ s.qFileCheck, ∃ ct, resolveAt c f.path = some (FSNode.file ct)
  rd : ∀ f ∈ s.qRead, ∃ ct, resolveAt c f.path = some (FSNode.file ct)
  yc : ∀ r ∈ s.qYieldCheck, ∃ ct, resolveAt c r.path = some (FSNode.file ct)
  ob : ∀ r ∈ s.outputBuffer, ∃ ct, resolveAt c r.path = some (FSNode.file ct)
  yl : ∀ r ∈ s.yielded, ∃ ct, resolveAt c r.path = some (FSNode.file ct)
  wk : ∀ w ∈ s.workers, workerOkT c w
  lg : ∀ ev ∈ s.ioLog, eventOkT c ev

/-- All predicates of the configuration are non-throwing. -/
def predsOk (c : Config) : Prop :=
  (∀ p, ∃ b, c.shouldExploreDir p = Except.ok b) ∧
    (∀ f, ∃ b, c.shouldReadFile f = Except.ok b) ∧
    (∀ r, ∃ b, yEff c r = Except.ok b)

/-- The clean-run hypotheses of the functional-correctness claim: a genuine
directory tree (distinct entry names, root is a directory), no failing I/O,
and non-throwing predicates. -/
def cleanRun (c : Config) : Prop :=
  nodupB c.fs = true ∧ totalB c.fs = true ∧
    (∃ es, c.fs = FSNode.dir (some es)) ∧ predsOk c

/-- The conservation invariant of a clean run: no error has been recorded,
the pending-plus-produced multiset is exactly the eligible set, and a
finished generator implies a completed run with an empty buffer. -/
structure InvC (c : Config) (s : MState) : Prop where
  noErr : s.error = none
  conserved : gather c s = eligibleM c
  endedDone : s.genState = GenState.ended → s.isDone = true ∧ s.outputBuffer = []

/-! ## List and multiset helpers -/

theorem mem_of_mem_set {α : Type} {l : List α} {i : Nat} {a x : α}
    (hx : x ∈ l.set i a) : x ∈ l ∨ x = a := by
  induction l generalizing i with
  | nil => simp [List.set] at hx
  | cons h t ih =>
    cases i with
    | zero =>
      rcases List.mem_cons.mp hx with h1 | h1
      · exact Or.inr h1
      · exact Or.inl (List.mem_cons_of_mem _ h1)
    | succ j =>
      rcases List.mem_cons.mp hx with h1 | h1
      · exact Or.inl (h1 ▸ List.mem_cons_self _ _)
      · rcases ih h1 with h2 | h2
        · exact Or.inl (List.mem_cons_of_mem _ h2)
        · exact Or.inr h2

theorem msum_nil : msum [] = 0 := rfl

theorem msum_cons (m : Multiset FPath) (l : List (Multiset FPath)) :
    msum (m :: l) = m + msum l := rfl

theorem msum_append (l1 l2 : List (Multiset FPath)) :
    msum (l1 ++ l2) = msum l1 + msum l2 := by
  induction l1 with
  | nil => simp [msum]
  | cons m rest ih => simp [msum, ih, add_assoc]

theorem msum_map_append {α : Type} (f : α → Multiset FPath) (l1 l2 : List α) :
    msum ((l1 ++ l2).map f) = msum (l1.map f) + msum (l2.map f) := by
  rw [List.map_append, msum_append]

theorem msum_map_congr {α : Type} {f g : α → Multiset FPath} {l : List α}
    (h : ∀ x ∈ l, f x = g x) : msum (l.map f) = msum (l.map g) := by
  induction l with
  | nil => rfl
  | cons a rest ih =>
    simp only [List.map_cons, msum_cons]
    rw [h a (List.mem_cons_self _ _), ih (fun x hx => h x (List.mem_cons_of_mem _ hx))]

theorem msum_map_zero {α : Type} {f : α → Multiset FPath} {l : List α}
    (h : ∀ x ∈ l, f x = 0) : msum (l.map f) = 0 := by
  induction l with
  | nil => rfl
  | cons a rest ih =>
    simp only [List.map_cons, msum_cons]
    rw [h a (List.mem_cons_self _ _), ih (fun x hx => h x (List.mem_cons_of_mem _ hx)),
      add_zero]

theorem msum_map_set {α : Type} (f : α → Multiset FPath) (l : List α) (i : Nat)
    (a b : α) (h : l.get? i = some b) :
    msum ((l.set i a).map f) + f b = msum (l.map f) + f a := by
  induction l generalizing i with
  | nil => simp [List.get?] at h
  | cons hd t ih =>
    cases i with
    | zero =>
      simp only [List.get?] at h
      cases h
      simp only [List.set, List.map_cons, msum_cons]
      abel
    | succ j =>
      simp only [List.get?] at h
      simp only [List.set, List.map_cons, msum_cons, add_assoc]
      rw [ih j h]

theorem pathsM_append (l1 l2 : List FileWithContents) :
    pathsM (l1 ++ l2) = pathsM l1 + pathsM l2 := by
  simp only [pathsM, List.map_append, msum_append]

theorem pathsM_cons (r : FileWithContents) (l : List FileWithContents) :
    pathsM (r :: l) = {r.path} + pathsM l := rfl

theorem pathsM_singleton (r : FileWithContents) :
    pathsM [r] = {r.path} := by
  simp [pathsM, msum, msum_cons]

theorem pathsM_nil : pathsM [] = 0 := rfl

theorem mem_pathsM {q : FPath} {l : List FileWithContents} :
    q ∈ pathsM l ↔ q ∈ l.map (fun r => r.path) := by
  induction l with
  | nil => simp [pathsM, msum]
  | cons r rest ih =>
    simp only [pathsM, List.map_cons, msum_cons] at *
    simp [Multiset.mem_add, ih]

theorem countP_set {α : Type} (p : α → Bool) (l : List α) (i : Nat) (a b : α)
    (h : l.get? i = some b) :
    (l.set i a).countP p + (if p b then 1 else 0) =
      l.countP p + (if p a then 1 else 0) := by
  induction l generalizing i with
  | nil => simp [List.get?] at h
  | cons hd t ih =>
    cases i with
    | zero =>
      simp only [List.get?] at h
      cases h
      simp only [List.set, List.countP_cons]
      omega
    | succ j =>
      simp only [List.get?] at h
      simp only [List.set, List.countP_cons]
      have := ih j h
      omega

theorem length_set_eq {α : Type} (l : List α) (i : Nat) (a : α) :
    (l.set i a).length = l.length := List.length_set ..

/-! ## Notification helpers -/

theorem notifyOne_live (w : WorkerState) : isLive (notifyOne w) = isLive w := by
  cases w <;> rfl

theorem notifyOne_awaiting (w : WorkerState) :
    isAwaitingB (notifyOne w) = isAwaitingB w := by
  cases w <;> rfl

theorem notifyOne_wContrib (c : Config) (w : WorkerState) :
    wContrib c (notifyOne w) = wContrib c w := by
  cases w <;> rfl

theorem countP_notify (ws : List WorkerState) :
    (notifyWorkersF ws).countP (fun w => isLive w) = ws.countP (fun w => isLive w) := by
  unfold notifyWorkersF
  rw [List.countP_map]
  exact List.countP_congr (fun w _ => by simp [Function.comp, notifyOne_live])

theorem get?_notify (ws : List WorkerState) (i : Nat) :
    (notifyWorkersF ws).get? i = (ws.get? i).map notifyOne := by
  unfold notifyWorkersF
  exact List.get?_map ..

theorem length_notify (ws : List WorkerState) :
    (notifyWorkersF ws).length = ws.length := by
  unfold notifyWorkersF
  exact List.length_map ..

theorem msum_notify (c : Config) (ws : List WorkerState) :
    msum ((notifyWorkersF ws).map (wContrib c)) = msum (ws.map (wContrib c)) := by
  unfold notifyWorkersF
  rw [List.map_map]
  exact msum_map_congr (fun w _ => by simp [Function.comp, notifyOne_wContrib])

theorem mem_notify {w : WorkerState} {ws : List WorkerState}
    (h : w ∈ notifyWorkersF ws) : ∃ v ∈ ws, w = notifyOne v := by
  rcases List.mem_map.mp h with ⟨v, hv, hw⟩
  exact ⟨v, hv, hw.symm⟩

/-! ## Tree resolution lemmas -/

theorem stripRoot_self (r : FPath) : stripRoot r r = some [] := by
  induction r with
  | nil => rfl
  | cons x xs ih => simp [stripRoot, ih]

theorem stripRoot_append {r p rel : FPath} (h : stripRoot r p = some rel)
    (q : FPath) : stripRoot r (p ++ q) = some (rel ++ q) := by
  induction r generalizing p rel with
  | nil =>
    simp only [stripRoot] at h
    cases h
    rfl
  | cons x xs ih =>
    cases p with
    | nil => simp [stripRoot] at h
    | cons y ys =>
      simp only [stripRoot] at h ⊢
      by_cases hxy : x = y
      · simp only [if_pos hxy] at h ⊢
        exact ih h
      · simp [if_neg hxy] at h

theorem resolveAt_root (c : Config) : resolveAt c c.root = some c.fs := by
  simp [resolveAt, stripRoot_self, walk]

theorem walk_append (n : FSNode) (rel q : FPath) :
    walk n (rel ++ q) = (walk n rel).bind (fun m => walk m q) := by
  induction rel generalizing n with
  | nil => simp [walk]
  | cons nm rest ih =>
    cases n with
    | file ct => simp [walk]
    | other => simp [walk]
    | dir d =>
      cases d with
      | none => simp [walk]
      | some es =>
        simp only [List.cons_append, walk]
        cases findEntry nm es with
        | none => simp
        | some ch => exact ih ch

theorem resolveAt_append {c : Config} {p : FPath} {n : FSNode}
    (h : resolveAt c p = some n) (q : FPath) :
    resolveAt c (p ++ q) = walk n q := by
  unfold resolveAt at h ⊢
  cases hs : stripRoot c.root p with
  | none => simp [hs] at h
  | some rel =>
    rw [hs] at h
    have h2 : walk c.fs rel = some n := h
    rw [stripRoot_append hs q]
    show walk c.fs (rel ++ q) = walk n q
    rw [walk_append, h2]
    rfl

theorem findEntry_of_mem {nm : String} {ch : FSNode}
    {es : List (String × FSNode)} (hnd : nodupStr (es.map Prod.fst) = true)
    (hm : (nm, ch) ∈ es) : findEntry nm es = some ch := by
  induction es with
  | nil => simp at hm
  | cons e rest ih =>
    simp only [List.map_cons, nodupStr, Bool.and_eq_true, Bool.not_eq_true'] at hnd
    rcases List.mem_cons.mp hm with h1 | h1
    · cases h1
      simp [findEntry, List.find?]
    · have hne : e.1 ≠ nm := by
        intro hEq
        have hmm : nm ∈ rest.map Prod.fst :=
          List.mem_map.mpr ⟨(nm, ch), h1, rfl⟩
        have hc := hnd.1
        rw [hEq] at hc
        simp only [List.contains, List.elem_eq_mem, decide_eq_false_iff_not] at hc
        exact hc hmm
      have hrest := ih hnd.2 h1
      unfold findEntry at hrest ⊢
      rw [List.find?_cons_of_neg]
      · exact hrest
      · simp [hne]

theorem nodupEntriesB_mem {es : List (String × FSNode)}
    (h : nodupEntriesB es = true) {e : String × FSNode} (he : e ∈ es) :
    nodupB e.2 = true := by
  induction es with
  | nil => simp at he
  | cons hd rest ih =>
    simp only [nodupEntriesB, Bool.and_eq_true] at h
    rcases List.mem_cons.mp he with h1 | h1
    · exact h1 ▸ h.1
    · exact ih h.2 h1

theorem totalEntriesB_mem {es : List (String × FSNode)}
    (h : totalEntriesB es = true) {e : String × FSNode} (he : e ∈ es) :
    totalB e.2 = true := by
  induction es with
  | nil => simp at he
  | cons hd rest ih =>
    simp only [totalEntriesB, Bool.and_eq_true] at h
    rcases List.mem_cons.mp he with h1 | h1
    · exact h1 ▸ h.1
    · exact ih h.2 h1

theorem nodupB_walk {n m : FSNode} {rel : FPath} (hn : nodupB n = true)
    (hw : walk n rel = some m) : nodupB m = true := by
  induction rel generalizing n with
  | nil =>
    simp only [walk] at hw
    cases hw
    exact hn
  | cons nm rest ih =>
    cases n with
    | file ct => simp [walk] at hw
    | other => simp [walk] at hw
    | dir d =>
      cases d with
      | none => simp [walk] at hw
      | some es =>
        simp only [walk] at hw
        cases hf : findEntry nm es with
        | none => rw [hf] at hw; simp at hw
        | some ch =>
          rw [hf] at hw
          have hmem : (nm, ch) ∈ es := by
            simp only [findEntry] at hf
            cases hfind : es.find? (fun e => e.1 = nm) with
            | none => rw [hfind] at hf; simp at hf
            | some e =>
              rw [hfind] at hf
              cases hf
              have h1 := List.mem_of_find?_eq_some hfind
              have h2 := List.find?_some hfind
              simp only [decide_eq_true_eq] at h2
              have : e = (nm, e.2) := by
                cases e; simp at h2 ⊢; exact h2
              exact this ▸ h1
          simp only [nodupB, Bool.and_eq_true] at hn
          exact ih (nodupEntriesB_mem hn.2 hmem) hw

theorem totalB_walk {n m : FSNode} {rel : FPath} (hn : totalB n = true)
    (hw : walk n rel = some m) : totalB m = true := by
  induction rel generalizing n with
  | nil =>
    simp only [walk] at hw
    cases hw
    exact hn
  | cons nm rest ih =>
    cases n with
    | file ct => simp [walk] at hw
    | other => simp [walk] at hw
    | dir d =>
      cases d with
      | none => simp [walk] at hw
      | some es =>
        simp only [walk] at hw
        cases hf : findEntry nm es with
        | none => rw [hf] at hw; simp at hw
        | some ch =>
          rw [hf] at hw
          have hmem : (nm, ch) ∈ es := by
            simp only [findEntry] at hf
            cases hfind : es.find? (fun e => e.1 = nm) with
            | none => rw [hfind] at hf; simp at hf
            | some e =>
              rw [hfind] at hf
              cases hf
              have h1 := List.mem_of_find?_eq_some hfind
              have h2 := List.find?_some hfind
              simp only [decide_eq_true_eq] at h2
              have : e = (nm, e.2) := by
                cases e; simp at h2 ⊢; exact h2
              exact this ▸ h1
          simp only [totalB] at hn
          exact ih (totalEntriesB_mem hn hmem) hw

theorem nodupB_resolve {c : Config} {p : FPath} {n : FSNode}
    (hc : nodupB c.fs = true) (h : resolveAt c p = some n) : nodupB n = true := by
  unfold resolveAt at h
  cases hs : stripRoot c.root p with
  | none => rw [hs] at h; simp at h
  | some rel => rw [hs] at h; exact nodupB_walk hc h

theorem totalB_resolve {c : Config} {p : FPath} {n : FSNode}
    (hc : totalB c.fs = true) (h : resolveAt c p = some n) : totalB n = true := by
  unfold resolveAt at h
  cases hs : stripRoot c.root p with
  | none => rw [hs] at h; simp at h
  | some rel => rw [hs] at h; exact totalB_walk hc h

theorem resolveAt_child {c : Config} {p : FPath} {es : List (String × FSNode)}
    (h : resolveAt c p = some (FSNode.dir (some es)))
    (hnd : nodupStr (es.map Prod.fst) = true) {nm : String} {ch : FSNode}
    (hm : (nm, ch) ∈ es) : resolveAt c (p ++ [nm]) = some ch := by
  rw [resolveAt_append h [nm]]
  simp [walk, findEntry_of_mem hnd hm]

/-! ## Small state-bookkeeping helpers -/

theorem get?_lt {α : Type} {l : List α} {i : Nat} {b : α}
    (h : l.get? i = some b) : i < l.length := by
  by_contra hge
  rw [List.get?_eq_none.mpr (Nat.le_of_not_lt hge)] at h
  exact Option.noConfusion h

theorem get?_set_self {α : Type} {l : List α} {i : Nat} {b : α}
    (h : l.get? i = some b) (a : α) : (l.set i a).get? i = some a :=
  List.get?_set_eq_of_lt a (get?_lt h)

theorem two_mem_length {α : Type} {a b : α} {l : List α} (ha : a ∈ l)
    (hb : b ∈ l) (hne : a ≠ b) : 2 ≤ l.length := by
  induction l with
  | nil => simp at ha
  | cons x xs ih =>
    rcases List.mem_cons.mp ha with h1 | h1
    · have hbx : b ∈ xs := by
        rcases List.mem_cons.mp hb with h2 | h2
        · exact absurd (h1.trans h2.symm) hne
        · exact h2
      have := List.length_pos.mpr (List.ne_nil_of_mem hbx)
      simp only [List.length_cons]
      omega
    · have := List.length_pos.mpr (List.ne_nil_of_mem h1)
      simp only [List.length_cons]
      omega

theorem live_le_countP {ws : List WorkerState} {i : Nat} {w : WorkerState}
    (h : ws.get? i = some w) (hw : isLive w = true) :
    1 ≤ ws.countP (fun v => isLive v) := by
  have : 0 < ws.countP (fun v => isLive v) :=
    List.countP_pos.mpr ⟨w, List.get?_mem h, hw⟩
  omega

theorem countLive_one_noAwait {ws : List WorkerState} {i : Nat}
    (hc : ws.countP (fun v => isLive v) = 1)
    (hi : ws.get? i = some WorkerState.atTop) :
    ∀ w ∈ ws, isAwaitingB w = false := by
  intro w hw
  by_contra hne
  have hwa : isAwaitingB w = true := by
    cases hx : isAwaitingB w
    · exact absurd hx hne
    · rfl
  have hlw : isLive w = true := by cases w <;> simp_all [isAwaitingB, isLive]
  have hwne : WorkerState.atTop ≠ w := by
    intro hEq
    rw [← hEq] at hwa
    simp [isAwaitingB] at hwa
  have h1 : WorkerState.atTop ∈ ws.filter (fun v => isLive v) :=
    List.mem_filter.mpr ⟨List.get?_mem hi, rfl⟩
  have h2 : w ∈ ws.filter (fun v => isLive v) :=
    List.mem_filter.mpr ⟨hw, hlw⟩
  have := two_mem_length h1 h2 hwne
  rw [← List.countP_eq_length_filter] at this
  omega

theorem noAwait_set {ws : List WorkerState} {i : Nat} {v : WorkerState}
    (h : ∀ w ∈ ws, isAwaitingB w = false) (hv : isAwaitingB v = false) :
    ∀ w ∈ ws.set i v, isAwaitingB w = false := by
  intro w hw
  rcases mem_of_mem_set hw with h1 | h1
  · exact h w h1
  · exact h1 ▸ hv

theorem noAwait_notify {ws : List WorkerState}
    (h : ∀ w ∈ ws, isAwaitingB w = false) :
    ∀ w ∈ notifyWorkersF ws, isAwaitingB w = false := by
  intro w hw
  rcases mem_notify hw with ⟨v, hv, hweq⟩
  rw [hweq, notifyOne_awaiting]
  exact h v hv

theorem countP_replicate_atTop (n : Nat) :
    (List.replicate n WorkerState.atTop).countP (fun v => isLive v) = n := by
  induction n with
  | zero => rfl
  | succ m ih =>
    rw [List.replicate_succ, List.countP_cons, ih]
    rfl

theorem isEmpty_append_singleton {α : Type} (l : List α) (x : α) :
    (l ++ [x]).isEmpty = false := by
  cases l <;> rfl

/-- The entries of a listed directory that are sub-directories, as the paths
the walker enqueues for them. -/
def dirChildren (p : FPath) (es : List (String × FSNode)) : List FPath :=
  es.filterMap (fun e =>
    match e.2 with
    | FSNode.dir _ => some (p ++ [e.1])
    | _ => none)

/-- The entries of a listed directory that are regular files, as the tasks
the walker enqueues for them. -/
def fileChildren (p : FPath) (es : List (String × FSNode)) :
    List FileWithoutContents :=
  es.filterMap (fun e =>
    match e.2 with
    | FSNode.file _ => some ⟨p ++ [e.1]⟩
    | _ => none)

theorem pushEntries_spec (p : FPath) (es : List (String × FSNode)) (s : MState) :
    pushEntries p es s =
      { s with qDirCheck := s.qDirCheck ++ dirChildren p es,
               qFileCheck := s.qFileCheck ++ fileChildren p es } := by
  induction es generalizing s with
  | nil => simp [pushEntries, dirChildren, fileChildren]
  | cons e rest ih =>
    cases he : e.2 with
    | dir d =>
      have hcons : pushEntries p (e :: rest) s =
          pushEntries p rest { s with qDirCheck := s.qDirCheck ++ [p ++ [e.1]] } := by
        simp [pushEntries, List.foldl_cons, he]
      rw [hcons, ih]
      cases s
      simp [dirChildren, fileChildren, List.filterMap_cons, he, List.append_assoc]
    | file ct =>
      have hcons : pushEntries p (e :: rest) s =
          pushEntries p rest
            { s with qFileCheck := s.qFileCheck ++ [⟨p ++ [e.1]⟩] } := by
        simp [pushEntries, List.foldl_cons, he]
      rw [hcons, ih]
      cases s
      simp [dirChildren, fileChildren, List.filterMap_cons, he, List.append_assoc]
    | other =>
      have hcons : pushEntries p (e :: rest) s = pushEntries p rest s := by
        simp [pushEntries, List.foldl_cons, he]
      rw [hcons, ih]
      cases s
      simp [dirChildren, fileChildren, List.filterMap_cons, he]

/-! ## Preservation of the synchronization invariant -/

theorem error_none_of_not_isSome {o : Option Err} (h : ¬ o.isSome = true) :
    o = none := by
  cases o with
  | none => rfl
  | some e => simp [Option.isSome] at h

theorem awaiting_mem_not_noAwait {s : MState} {i : Nat} {w : WorkerState}
    (hget : s.workers.get? i = some w) (hw : isAwaitingB w = true)
    (hna : noAwaitP s) : False := by
  have := hna w (List.get?_mem hget)
  rw [this] at hw
  exact Bool.noConfusion hw

theorem isLive_atTop : isLive WorkerState.atTop = true := rfl

theorem isLive_woken : isLive WorkerState.woken = false := rfl

theorem isLive_parked : isLive WorkerState.parked = false := rfl

theorem isLive_finished : isLive WorkerState.finished = false := rfl

theorem isLive_ar (f : FileWithoutContents) :
    isLive (WorkerState.awaitingRead f) = true := rfl

theorem isLive_ad (p : FPath) :
    isLive (WorkerState.awaitingReaddir p) = true := rfl

theorem countLive_set {ws : List WorkerState} {i : Nat} {b : WorkerState}
    (h : ws.get? i = some b) (a : WorkerState) :
    (ws.set i a).countP (fun v => isLive v) + (if isLive b then 1 else 0) =
      ws.countP (fun v => isLive v) + (if isLive a then 1 else 0) :=
  countP_set _ _ _ _ _ h

theorem invB_gen (s : MState) (h : InvB s) : InvB (genStepF s) := by
  have hf : ∀ (buf yld : List FileWithContents) (g : GenState),
      InvB { s with outputBuffer := buf, yielded := yld, genState := g } :=
    fun _ _ _ => ⟨h.doneEmpty, h.count, h.errActive, h.emptyDone⟩
  unfold genStepF
  split
  all_goals try exact h
  all_goals
    split
  all_goals try exact hf _ _ _
  all_goals split
  all_goals try exact hf _ _ _
  all_goals split
  all_goals exact hf _ _ _

theorem invB_wake (s : MState) (i : Nat) (h : InvB s) : InvB (wakeF s i) := by
  unfold wakeF
  split
  case _ hget =>
    have hcnt := countLive_set hget WorkerState.atTop
    rw [isLive_woken, isLive_atTop] at hcnt
    simp only [if_true, if_false, Bool.false_eq_true] at hcnt
    refine ⟨?_, ?_, ?_, ?_⟩
    · intro hd
      obtain ⟨he, hna⟩ := h.doneEmpty hd
      exact ⟨he, noAwait_set hna rfl⟩
    · intro herr
      have hc := h.count herr
      simp only [countLive] at hc ⊢
      omega
    · intro herr
      have := h.errActive herr
      simp only []
      omega
    · intro herr hact hempty
      have hc := h.count herr
      simp only [countLive] at hc
      simp only [] at hact
      omega
  case _ => exact h

theorem invB_ioRead (c : Config) (s : MState) (i : Nat) (h : InvB s) :
    InvB (ioReadF c s i) := by
  unfold ioReadF
  split
  case _ f hget =>
    have hlive : isLive (WorkerState.awaitingRead f) = true := rfl
    split
    case _ t hsem =>
      refine ⟨?_, ?_, ?_, ?_⟩
      · intro hd
        exact absurd (h.doneEmpty hd).2 (fun hna =>
          awaiting_mem_not_noAwait hget rfl hna)
      · intro herr
        have hc := h.count herr
        have hg2 : (notifyWorkersF s.workers).get? i =
            some (WorkerState.awaitingRead f) := by
          rw [get?_notify, hget]; rfl
        have hcnt := countLive_set hg2 WorkerState.atTop
        rw [isLive_ar, isLive_atTop] at hcnt
        simp only [if_true] at hcnt
        have hn := countP_notify s.workers
        simp only [countLive] at hc ⊢
        omega
      · intro herr
        exact h.errActive herr
      · intro herr hact hempty
        simp only [allQueuesEmptyB, isEmpty_append_singleton, Bool.false_and,
          Bool.and_eq_true, Bool.false_eq_true, false_and] at hempty
    case _ e hsem =>
      refine ⟨?_, ?_, ?_, ?_⟩
      · intro hd
        exact absurd (h.doneEmpty hd).2 (fun hna =>
          awaiting_mem_not_noAwait hget rfl hna)
      · intro herr
        simp at herr
      · intro _
        dsimp only
        cases ho : s.error with
        | none =>
          have hc := h.count ho
          have := live_le_countP hget hlive
          simp only [countLive] at hc
          omega
        | some e0 =>
          have := h.errActive (by simp [ho])
          omega
      · intro herr
        simp at herr
  case _ => exact h

theorem invB_ioList (c : Config) (s : MState) (i : Nat) (h : InvB s) :
    InvB (ioListF c s i) := by
  unfold ioListF
  split
  case _ p hget =>
    have hlive : isLive (WorkerState.awaitingReaddir p) = true := rfl
    split
    case _ es hsem =>
      rw [pushEntries_spec]
      refine ⟨?_, ?_, ?_, ?_⟩
      · intro hd
        exact absurd (h.doneEmpty hd).2 (fun hna =>
          awaiting_mem_not_noAwait hget rfl hna)
      · intro herr
        have hc := h.count herr
        simp only [countLive] at hc ⊢
        split
        · have hg2 : (notifyWorkersF s.workers).get? i =
              some (WorkerState.awaitingReaddir p) := by
            rw [get?_notify, hget]; rfl
          have hcnt := countLive_set hg2 WorkerState.atTop
          rw [isLive_ad, isLive_atTop] at hcnt
          simp only [if_true] at hcnt
          have hn := countP_notify s.workers
          omega
        · have hcnt := countLive_set hget WorkerState.atTop
          rw [isLive_ad, isLive_atTop] at hcnt
          simp only [if_true] at hcnt
          omega
      · intro herr
        exact h.errActive herr
      · intro herr hact hempty
        cases ho : s.error with
        | none =>
          have hc := h.count ho
          have := live_le_countP hget hlive
          simp only [countLive] at hc
          simp only [] at hact
          omega
        | some e0 =>
          have := h.errActive (by simp [ho])
          simp only [] at hact
          omega
    case _ e hsem =>
      refine ⟨?_, ?_, ?_, ?_⟩
      · intro hd
        exact absurd (h.doneEmpty hd).2 (fun hna =>
          awaiting_mem_not_noAwait hget rfl hna)
      · intro herr
        simp at herr
      · intro _
        dsimp only
        cases ho : s.error with
        | none =>
          have hc := h.count ho
          have := live_le_countP hget hlive
          simp only [countLive] at hc
          omega
        | some e0 =>
          have := h.errActive (by simp [ho])
          omega
      · intro herr
        simp at herr
  case _ => exact h

theorem invB_wstep (c : Config) (s : MState) (i : Nat) (h : InvB s) :
    InvB (wstepF c s i) := by
  unfold wstepF
  split
  · rename_i hget
    have hlive := live_le_countP hget isLive_atTop
    split
    · rename_i herrS
      have herrNe : s.error ≠ none := by
        intro hn; rw [hn] at herrS; simp at herrS
      refine ⟨?_, ?_, ?_, ?_⟩
      · intro hd
        obtain ⟨he, hna⟩ := h.doneEmpty hd
        exact ⟨he, noAwait_set hna rfl⟩
      · intro herr
        exact absurd herr herrNe
      · intro _
        exact h.errActive herrNe
      · intro herr
        exact absurd herr herrNe
    · rename_i herrS
      have herrN : s.error = none := error_none_of_not_isSome herrS
      have hc := h.count herrN
      simp only [countLive] at hc
      split
      · rename_i r restYC hq
        have hde : s.isDone = true → False := by
          intro hd
          have he := (h.doneEmpty hd).1
          simp [allQueuesEmptyB, hq] at he
        split
        · refine ⟨fun hd => absurd hd hde, ?_, ?_, ?_⟩
          · intro herr
            exact h.count herr
          · intro herr
            exact absurd herrN herr
          · intro herr hact _
            exfalso
            dsimp only at hact
            omega
        · refine ⟨fun hd => absurd hd hde, ?_, ?_, ?_⟩
          · intro herr
            exact h.count herr
          · intro herr
            exact absurd herrN herr
          · intro herr hact _
            exfalso
            dsimp only at hact
            omega
        · refine ⟨fun hd => absurd hd hde, ?_, ?_, ?_⟩
          · intro herr
            simp at herr
          · intro _
            dsimp only
            omega
          · intro herr
            simp at herr
      · split
        · rename_i f restR hq
          have hde : s.isDone = true → False := by
            intro hd
            have he := (h.doneEmpty hd).1
            simp [allQueuesEmptyB, hq] at he
          have hcnt := countLive_set hget (WorkerState.awaitingRead f)
          rw [isLive_atTop, isLive_ar] at hcnt
          simp only [if_true] at hcnt
          refine ⟨fun hd => absurd hd hde, ?_, ?_, ?_⟩
          · intro herr
            dsimp only
            simp only [countLive]
            omega
          · intro herr
            exact absurd herrN herr
          · intro herr hact _
            exfalso
            dsimp only at hact
            omega
        · split
          · rename_i f restFC hq
            have hde : s.isDone = true → False := by
              intro hd
              have he := (h.doneEmpty hd).1
              simp [allQueuesEmptyB, hq] at he
            split
            · refine ⟨fun hd => absurd hd hde, ?_, ?_, ?_⟩
              · intro herr
                dsimp only
                simp only [countLive, countP_notify]
                omega
              · intro herr
                exact absurd herrN herr
              · intro herr hact _
                exfalso
                dsimp only at hact
                omega
            · refine ⟨fun hd => absurd hd hde, ?_, ?_, ?_⟩
              · intro herr
                exact h.count herr
              · intro herr
                exact absurd herrN herr
              · intro herr hact _
                exfalso
                dsimp only at hact
                omega
            · refine ⟨fun hd => absurd hd hde, ?_, ?_, ?_⟩
              · intro herr
                simp at herr
              · intro _
                dsimp only
                omega
              · intro herr
                simp at herr
          · split
            · rename_i p restDS hq
              have hde : s.isDone = true → False := by
                intro hd
                have he := (h.doneEmpty hd).1
                simp [allQueuesEmptyB, hq] at he
              have hcnt := countLive_set hget (WorkerState.awaitingReaddir p)
              rw [isLive_atTop, isLive_ad] at hcnt
              simp only [if_true] at hcnt
              refine ⟨fun hd => absurd hd hde, ?_, ?_, ?_⟩
              · intro herr
                dsimp only
                simp only [countLive]
                omega
              · intro herr
                exact absurd herrN herr
              · intro herr hact _
                exfalso
                dsimp only at hact
                omega
            · split
              · rename_i p restDC hq
                have hde : s.isDone = true → False := by
                  intro hd
                  have he := (h.doneEmpty hd).1
                  simp [allQueuesEmptyB, hq] at he
                split
                · refine ⟨fun hd => absurd hd hde, ?_, ?_, ?_⟩
                  · intro herr
                    dsimp only
                    simp only [countLive, countP_notify]
                    omega
                  · intro herr
                    exact absurd herrN herr
                  · intro herr hact _
                    exfalso
                    dsimp only at hact
                    omega
                · refine ⟨fun hd => absurd hd hde, ?_, ?_, ?_⟩
                  · intro herr
                    exact h.count herr
                  · intro herr
                    exact absurd herrN herr
                  · intro herr hact _
                    exfalso
                    dsimp only at hact
                    omega
                · have hcnt := countLive_set hget WorkerState.finished
                  rw [isLive_atTop, isLive_finished] at hcnt
                  simp only [if_true, Bool.false_eq_true, if_false] at hcnt
                  refine ⟨fun hd => absurd hd hde, ?_, ?_, ?_⟩
                  · intro herr
                    simp at herr
                  · intro _
                    dsimp only
                    omega
                  · intro herr
                    simp at herr
              · split
                · rename_i hcond
                  have hone : s.workers.countP (fun v => isLive v) = 1 := by
                    obtain ⟨ha, _⟩ := hcond
                    omega
                  have hna := countLive_one_noAwait hone hget
                  have hg2 : (notifyWorkersF s.workers).get? i =
                      some WorkerState.atTop := by
                    rw [get?_notify, hget]; rfl
                  have hcnt := countLive_set hg2 WorkerState.finished
                  rw [isLive_atTop, isLive_finished] at hcnt
                  simp only [if_true, Bool.false_eq_true, if_false] at hcnt
                  have hn := countP_notify s.workers
                  refine ⟨?_, ?_, ?_, ?_⟩
                  · intro _
                    refine ⟨hcond.2, ?_⟩
                    exact noAwait_set (noAwait_notify hna) rfl
                  · intro _
                    dsimp only
                    simp only [countLive]
                    omega
                  · intro herr
                    exact absurd herrN herr
                  · intro _ _ _
                    rfl
                · rename_i hcond
                  have hcnt := countLive_set hget WorkerState.parked
                  rw [isLive_atTop, isLive_parked] at hcnt
                  simp only [if_true, Bool.false_eq_true, if_false] at hcnt
                  refine ⟨?_, ?_, ?_, ?_⟩
                  · intro hd
                    obtain ⟨he, hna⟩ := h.doneEmpty hd
                    exact ⟨he, noAwait_set hna rfl⟩
                  · intro _
                    dsimp only
                    simp only [countLive]
                    omega
                  · intro herr
                    exact absurd herrN herr
                  · intro _ hact hempty
                    dsimp only at hact
                    exact absurd ⟨hact, hempty⟩ hcond
  · exact h

/-! ## Preservation of the queue-typing invariant -/

theorem workerOkT_notifyOne {c : Config} {w : WorkerState} (h : workerOkT c w) :
    workerOkT c (notifyOne w) := by
  cases w <;> (try exact h) <;> trivial

theorem wk_ok_notify {c : Config} {ws : List WorkerState}
    (h : ∀ w ∈ ws, workerOkT c w) :
    ∀ w ∈ notifyWorkersF ws, workerOkT c w := by
  intro w hw
  rcases mem_notify hw with ⟨v, hv, rfl⟩
  exact workerOkT_notifyOne (h v hv)

theorem wk_ok_set {c : Config} {ws : List WorkerState} {i : Nat}
    {v : WorkerState} (h : ∀ w ∈ ws, workerOkT c w) (hv : workerOkT c v) :
    ∀ w ∈ ws.set i v, workerOkT c w := by
  intro w hw
  rcases mem_of_mem_set hw with h1 | h1
  · exact h w h1
  · exact h1 ▸ hv

theorem readFileSem_ok {c : Config} {p : FPath} {t : String}
    (h : readFileSem c p = Except.ok t) :
    resolveAt c p = some (FSNode.file (some t)) := by
  unfold readFileSem at h
  cases hres : resolveAt c p with
  | none => rw [hres] at h; simp at h
  | some n =>
    rw [hres] at h
    cases n with
    | file ct =>
      cases ct with
      | some t0 =>
        simp only [Except.ok.injEq] at h
        rw [h]
      | none => simp at h
    | dir d => simp at h
    | other => simp at h

theorem readdirSem_ok {c : Config} {p : FPath} {es : List (String × FSNode)}
    (h : readdirSem c p = Except.ok es) :
    resolveAt c p = some (FSNode.dir (some es)) := by
  unfold readdirSem at h
  cases hres : resolveAt c p with
  | none => rw [hres] at h; simp at h
  | some n =>
    rw [hres] at h
    cases n with
    | file ct => simp at h
    | dir d =>
      cases d with
      | some es0 =>
        simp only [Except.ok.injEq] at h
        rw [h]
      | none => simp at h
    | other => simp at h

theorem mem_dirChildren {p q : FPath} {es : List (String × FSNode)}
    (h : q ∈ dirChildren p es) :
    ∃ e ∈ es, (∃ d, e.2 = FSNode.dir d) ∧ q = p ++ [e.1] := by
  rcases List.mem_filterMap.mp h with ⟨e, he, hfe⟩
  refine ⟨e, he, ?_, ?_⟩
  · cases hn : e.2 with
    | dir d => exact ⟨d, rfl⟩
    | file ct => rw [hn] at hfe; simp at hfe
    | other => rw [hn] at hfe; simp at hfe
  · cases hn : e.2 <;> rw [hn] at hfe <;> simp at hfe
    case dir d => exact hfe.symm

theorem mem_fileChildren {p : FPath} {f : FileWithoutContents}
    {es : List (String × FSNode)} (h : f ∈ fileChildren p es) :
    ∃ e ∈ es, (∃ ct, e.2 = FSNode.file ct) ∧ f.path = p ++ [e.1] := by
  rcases List.mem_filterMap.mp h with ⟨e, he, hfe⟩
  refine ⟨e, he, ?_, ?_⟩
  · cases hn : e.2 with
    | file ct => exact ⟨ct, rfl⟩
    | dir d => rw [hn] at hfe; simp at hfe
    | other => rw [hn] at hfe; simp at hfe
  · cases hn : e.2 <;> rw [hn] at hfe <;> simp at hfe
    case file ct => rw [← hfe]

theorem typ_gen (c : Config) (s : MState) (ht : TypInv c s) :
    TypInv c (genStepF s) := by
  unfold genStepF
  split
  · split
    · rename_i r rest hq
      refine ⟨ht.ds, ht.dc, ht.fc, ht.rd, ht.yc, ?_, ?_, ht.wk, ht.lg⟩
      · intro x hx
        exact ht.ob x (by rw [hq]; exact List.mem_cons_of_mem _ hx)
      · intro x hx
        rcases List.mem_append.mp hx with h1 | h1
        · exact ht.yl x h1
        · have hx0 : x = r := by simpa using h1
          exact hx0 ▸ ht.ob r (by rw [hq]; exact List.mem_cons_self _ _)
    · split
      · exact ⟨ht.ds, ht.dc, ht.fc, ht.rd, ht.yc, ht.ob, ht.yl, ht.wk, ht.lg⟩
      · split <;>
          exact ⟨ht.ds, ht.dc, ht.fc, ht.rd, ht.yc, ht.ob, ht.yl, ht.wk, ht.lg⟩
  · exact ht

theorem typ_wake (c : Config) (s : MState) (i : Nat) (ht : TypInv c s) :
    TypInv c (wakeF s i) := by
  unfold wakeF
  split
  · exact ⟨ht.ds, ht.dc, ht.fc, ht.rd, ht.yc, ht.ob, ht.yl,
      wk_ok_set ht.wk trivial, ht.lg⟩
  · exact ht

theorem typ_ioRead (c : Config) (s : MState) (i : Nat) (ht : TypInv c s) :
    TypInv c (ioReadF c s i) := by
  unfold ioReadF
  split
  · rename_i f hget
    have hwf : workerOkT c (WorkerState.awaitingRead f) :=
      ht.wk _ (List.get?_mem hget)
    split
    · rename_i t hsem
      have hres := readFileSem_ok hsem
      refine ⟨ht.ds, ht.dc, ht.fc, ht.rd, ?_, ht.ob, ht.yl, ?_, ht.lg⟩
      · intro x hx
        rcases List.mem_append.mp hx with h1 | h1
        · exact ht.yc x h1
        · have hx0 : x = ⟨f.path, t⟩ := by simpa using h1
          exact hx0 ▸ ⟨some t, hres⟩
      · exact wk_ok_set (wk_ok_notify ht.wk) trivial
    · exact ⟨ht.ds, ht.dc, ht.fc, ht.rd, ht.yc, ht.ob, ht.yl,
        wk_ok_set ht.wk trivial, ht.lg⟩
  · exact ht

theorem typ_ioList (c : Config) (s : MState) (i : Nat)
    (hnd : nodupB c.fs = true) (ht : TypInv c s) : TypInv c (ioListF c s i) := by
  unfold ioListF
  split
  · rename_i p hget
    split
    · rename_i es hsem
      have hres := readdirSem_ok hsem
      have hnd2 : nodupStr (es.map Prod.fst) = true := by
        have := nodupB_resolve hnd hres
        simp only [nodupB, Bool.and_eq_true] at this
        exact this.1
      have hch : ∀ e ∈ es, resolveAt c (p ++ [e.1]) = some e.2 := by
        intro e he
        exact resolveAt_child hres hnd2 (by cases e; exact he)
      rw [pushEntries_spec]
      refine ⟨ht.ds, ?_, ?_, ht.rd, ht.yc, ht.ob, ht.yl, ?_, ht.lg⟩
      · intro q hq
        rcases List.mem_append.mp hq with h1 | h1
        · exact ht.dc q h1
        · rcases mem_dirChildren h1 with ⟨e, he, ⟨d, hd⟩, hqe⟩
          refine ⟨d, ?_⟩
          rw [hqe, hch e he, hd]
      · intro f hf
        rcases List.mem_append.mp hf with h1 | h1
        · exact ht.fc f h1
        · rcases mem_fileChildren h1 with ⟨e, he, ⟨ct, hcte⟩, hfe⟩
          refine ⟨ct, ?_⟩
          rw [hfe, hch e he, hcte]
      · split <;> exact wk_ok_set (by first
          | exact wk_ok_notify ht.wk
          | exact ht.wk) trivial
    · exact ⟨ht.ds, ht.dc, ht.fc, ht.rd, ht.yc, ht.ob, ht.yl,
        wk_ok_set ht.wk trivial, ht.lg⟩
  · exact ht

theorem typ_wstep (c : Config) (s : MState) (i : Nat) (ht : TypInv c s) :
    TypInv c (wstepF c s i) := by
  unfold wstepF
  split
  · rename_i hget
    split
    · exact ⟨ht.ds, ht.dc, ht.fc, ht.rd, ht.yc, ht.ob, ht.yl,
        wk_ok_set ht.wk trivial, ht.lg⟩
    · split
      · rename_i r restYC hq
        have hr : ∃ ct, resolveAt c r.path = some (FSNode.file ct) :=
          ht.yc r (by rw [hq]; exact List.mem_cons_self _ _)
        have hyc : ∀ x ∈ restYC, ∃ ct, resolveAt c x.path = some (FSNode.file ct) :=
          fun x hx => ht.yc x (by rw [hq]; exact List.mem_cons_of_mem _ hx)
        have hlg : ∀ ev ∈ s.ioLog ++ [IOEvent.evalYieldPred r.path],
            eventOkT c ev := by
          intro ev hev
          rcases List.mem_append.mp hev with h1 | h1
          · exact ht.lg ev h1
          · have : ev = IOEvent.evalYieldPred r.path := by simpa using h1
            exact this ▸ hr
        split
        · refine ⟨ht.ds, ht.dc, ht.fc, ht.rd, hyc, ?_, ht.yl, ht.wk, hlg⟩
          intro x hx
          rcases List.mem_append.mp hx with h1 | h1
          · exact ht.ob x h1
          · have hx0 : x = r := by simpa using h1
            exact hx0 ▸ hr
        · exact ⟨ht.ds, ht.dc, ht.fc, ht.rd, hyc, ht.ob, ht.yl, ht.wk, hlg⟩
        · exact ⟨ht.ds, ht.dc, ht.fc, ht.rd, hyc, ht.ob, ht.yl, ht.wk, hlg⟩
      · split
        · rename_i f restR hq
          have hr : ∃ ct, resolveAt c f.path = some (FSNode.file ct) :=
            ht.rd f (by rw [hq]; exact List.mem_cons_self _ _)
          refine ⟨ht.ds, ht.dc, ht.fc, ?_, ht.yc, ht.ob, ht.yl, ?_, ?_⟩
          · intro x hx
            exact ht.rd x (by rw [hq]; exact List.mem_cons_of_mem _ hx)
          · exact wk_ok_set ht.wk hr
          · intro ev hev
            rcases List.mem_append.mp hev with h1 | h1
            · exact ht.lg ev h1
            · have : ev = IOEvent.readFileEv f.path := by simpa using h1
              exact this ▸ hr
        · split
          · rename_i f restFC hq
            have hr : ∃ ct, resolveAt c f.path = some (FSNode.file ct) :=
              ht.fc f (by rw [hq]; exact List.mem_cons_self _ _)
            have hfc : ∀ x ∈ restFC,
                ∃ ct, resolveAt c x.path = some (FSNode.file ct) :=
              fun x hx => ht.fc x (by rw [hq]; exact List.mem_cons_of_mem _ hx)
            have hlg : ∀ ev ∈ s.ioLog ++ [IOEvent.evalFilePred f.path],
                eventOkT c ev := by
              intro ev hev
              rcases List.mem_append.mp hev with h1 | h1
              · exact ht.lg ev h1
              · have : ev = IOEvent.evalFilePred f.path := by simpa using h1
                exact this ▸ hr
            split
            · refine ⟨ht.ds, ht.dc, hfc, ?_, ht.yc, ht.ob, ht.yl,
                wk_ok_notify ht.wk, hlg⟩
              intro x hx
              rcases List.mem_append.mp hx with h1 | h1
              · exact ht.rd x h1
              · have hx0 : x = f := by simpa using h1
                exact hx0 ▸ hr
            · exact ⟨ht.ds, ht.dc, hfc, ht.rd, ht.yc, ht.ob, ht.yl, ht.wk, hlg⟩
            · exact ⟨ht.ds, ht.dc, hfc, ht.rd, ht.yc, ht.ob, ht.yl, ht.wk, hlg⟩
          · split
            · rename_i p restDS hq
              have hr : p = c.root ∨ ∃ d, resolveAt c p = some (FSNode.dir d) :=
                ht.ds p (by rw [hq]; exact List.mem_cons_self _ _)
              refine ⟨?_, ht.dc, ht.fc, ht.rd, ht.yc, ht.ob, ht.yl, ?_, ?_⟩
              · intro x hx
                exact ht.ds x (by rw [hq]; exact List.mem_cons_of_mem _ hx)
              · exact wk_ok_set ht.wk hr
              · intro ev hev
                rcases List.mem_append.mp hev with h1 | h1
                · exact ht.lg ev h1
                · have : ev = IOEvent.readdirEv p := by simpa using h1
                  exact this ▸ hr
            · split
              · rename_i p restDC hq
                have hr : ∃ d, resolveAt c p = some (FSNode.dir d) :=
                  ht.dc p (by rw [hq]; exact List.mem_cons_self _ _)
                have hdc : ∀ x ∈ restDC,
                    ∃ d, resolveAt c x = some (FSNode.dir d) :=
                  fun x hx => ht.dc x (by rw [hq]; exact List.mem_cons_of_mem _ hx)
                have hlg : ∀ ev ∈ s.ioLog ++ [IOEvent.evalDirPred p],
                    eventOkT c ev := by
                  intro ev hev
                  rcases List.mem_append.mp hev with h1 | h1
                  · exact ht.lg ev h1
                  · have : ev = IOEvent.evalDirPred p := by simpa using h1
                    exact this ▸ hr
                split
                · refine ⟨?_, hdc, ht.fc, ht.rd, ht.yc, ht.ob, ht.yl,
                    wk_ok_notify ht.wk, hlg⟩
                  intro x hx
                  rcases List.mem_append.mp hx with h1 | h1
                  · exact ht.ds x h1
                  · have hx0 : x = p := by simpa using h1
                    exact hx0 ▸ Or.inr hr
                · exact ⟨ht.ds, hdc, ht.fc, ht.rd, ht.yc, ht.ob, ht.yl, ht.wk, hlg⟩
                · exact ⟨ht.ds, hdc, ht.fc, ht.rd, ht.yc, ht.ob, ht.yl,
                    wk_ok_set ht.wk trivial, hlg⟩
              · split
                · exact ⟨ht.ds, ht.dc, ht.fc, ht.rd, ht.yc, ht.ob, ht.yl,
                    wk_ok_set (wk_ok_notify ht.wk) trivial, ht.lg⟩
                · exact ⟨ht.ds, ht.dc, ht.fc, ht.rd, ht.yc, ht.ob, ht.yl,
                    wk_ok_set ht.wk trivial, ht.lg⟩
  · exact ht

theorem typ_apply (c : Config) (s : MState) (a : Action)
    (hnd : nodupB c.fs = true) (ht : TypInv c s) :
    TypInv c (applyAction c s a) := by
  cases a with
  | work i => exact typ_wstep c s i ht
  | ioRead i => exact typ_ioRead c s i ht
  | ioList i => exact typ_ioList c s i hnd ht
  | wake i => exact typ_wake c s i ht
  | pull => exact typ_gen c s ht

theorem invB_apply (c : Config) (s : MState) (a : Action) (h : InvB s) :
    InvB (applyAction c s a) := by
  cases a with
  | work i => exact invB_wstep c s i h
  | ioRead i => exact invB_ioRead c s i h
  | ioList i => exact invB_ioList c s i h
  | wake i => exact invB_wake s i h
  | pull => exact invB_gen s h

theorem invB_runActions (c : Config) (s : MState) (acts : List Action)
    (h : InvB s) : InvB (runActions c s acts) := by
  induction acts generalizing s with
  | nil => exact h
  | cons a rest ih => exact ih _ (invB_apply c s a h)

theorem typ_runActions (c : Config) (s : MState) (acts : List Action)
    (hnd : nodupB c.fs = true) (ht : TypInv c s) :
    TypInv c (runActions c s acts) := by
  induction acts generalizing s with
  | nil => exact ht
  | cons a rest ih => exact ih _ (typ_apply c s a hnd ht)

theorem invB_init (c : Config) (n : Nat) : InvB (initState c n) := by
  refine ⟨?_, ?_, ?_, ?_⟩
  · intro hd
    simp [initState] at hd
  · intro _
    simp [initState, countLive, countP_replicate_atTop]
  · intro herr
    simp [initState] at herr
  · intro _ _ hempty
    simp [initState, allQueuesEmptyB] at hempty

theorem typ_init (c : Config) (n : Nat) : TypInv c (initState c n) := by
  refine ⟨?_, ?_, ?_, ?_, ?_, ?_, ?_, ?_, ?_⟩
  · intro x hx
    exact Or.inl (by simpa [initState] using hx)
  · intro x hx
    simp [initState] at hx
  · intro x hx
    simp [initState] at hx
  · intro x hx
    simp [initState] at hx
  · intro x hx
    simp [initState] at hx
  · intro x hx
    simp [initState] at hx
  · intro x hx
    simp [initState] at hx
  · intro w hw
    have hw2 : w ∈ List.replicate n WorkerState.atTop := hw
    have : w = WorkerState.atTop := List.eq_of_mem_replicate hw2
    exact this ▸ trivial
  · intro x hx
    simp [initState] at hx

/-! ## Contribution bookkeeping -/

theorem msum_singleton (m : Multiset FPath) : msum [m] = m := by
  simp [msum]

theorem ycContrib_true {c : Config} {r : FileWithContents}
    (h : yEff c r = Except.ok true) : ycContrib c r = {r.path} := by
  simp [ycContrib, h]

theorem ycContrib_false {c : Config} {r : FileWithContents}
    (h : yEff c r = Except.ok false) : ycContrib c r = 0 := by
  simp [ycContrib, h]

theorem fcContrib_true {c : Config} {f : FileWithoutContents}
    (h : c.shouldReadFile f = Except.ok true) :
    fcContrib c f = rdContrib c f.path := by
  simp [fcContrib, h]

theorem fcContrib_false {c : Config} {f : FileWithoutContents}
    (h : c.shouldReadFile f = Except.ok false) : fcContrib c f = 0 := by
  simp [fcContrib, h]

theorem dcContrib_true {c : Config} {p : FPath}
    (h : c.shouldExploreDir p = Except.ok true) :
    dcContrib c p = dsContrib c p := by
  simp [dcContrib, h]

theorem dcContrib_false {c : Config} {p : FPath}
    (h : c.shouldExploreDir p = Except.ok false) : dcContrib c p = 0 := by
  simp [dcContrib, h]

theorem rdContrib_of_res {c : Config} {q : FPath} {t : String}
    (h : resolveAt c q = some (FSNode.file (some t))) :
    rdContrib c q = ycContrib c ⟨q, t⟩ := by
  simp [rdContrib, h]

theorem dsContrib_res {c : Config} {p : FPath} {n : FSNode}
    (h : resolveAt c p = some n) : dsContrib c p = contribNode c n p := by
  simp [dsContrib, h]

theorem wContrib_atTop (c : Config) : wContrib c WorkerState.atTop = 0 := rfl

theorem wContrib_parked (c : Config) : wContrib c WorkerState.parked = 0 := rfl

theorem wContrib_woken (c : Config) : wContrib c WorkerState.woken = 0 := rfl

theorem wContrib_finished (c : Config) : wContrib c WorkerState.finished = 0 := rfl

theorem wContrib_ar (c : Config) (f : FileWithoutContents) :
    wContrib c (WorkerState.awaitingRead f) = rdContrib c f.path := rfl

theorem wContrib_ad (c : Config) (p : FPath) :
    wContrib c (WorkerState.awaitingReaddir p) = dsContrib c p := rfl

theorem fcContrib_fileGate {c : Config} {q : FPath} {t : String}
    (h : resolveAt c q = some (FSNode.file (some t))) :
    fcContrib c ⟨q⟩ = fileGate c q t := by
  unfold fcContrib fileGate
  cases hpf : c.shouldReadFile ⟨q⟩ with
  | ok b =>
    cases b
    · rfl
    · rw [rdContrib_of_res h]
      rfl
  | error e => rfl

theorem fcContrib_zero_of_bad {c : Config} {q : FPath}
    (h : resolveAt c q = some (FSNode.file none)) : fcContrib c ⟨q⟩ = 0 := by
  unfold fcContrib
  cases hpf : c.shouldReadFile ⟨q⟩ with
  | ok b =>
    cases b
    · rfl
    · simp [rdContrib, h]
  | error e => rfl

theorem dcContrib_of_dir {c : Config} {q : FPath} {d : Option (List (String × FSNode))}
    (h : resolveAt c q = some (FSNode.dir d)) :
    dcContrib c q =
      (match c.shouldExploreDir q with
       | Except.ok true => contribNode c (FSNode.dir d) q
       | _ => 0) := by
  unfold dcContrib
  cases hpd : c.shouldExploreDir q with
  | ok b =>
    cases b
    · rfl
    · rw [dsContrib_res h]
  | error e => rfl

theorem contribEntries_split (c : Config) (p : FPath)
    (es : List (String × FSNode))
    (hch : ∀ e ∈ es, resolveAt c (p ++ [e.1]) = some e.2) :
    msum ((dirChildren p es).map (dcContrib c)) +
      msum ((fileChildren p es).map (fcContrib c)) = contribEntries c p es := by
  induction es with
  | nil => simp [dirChildren, fileChildren, msum, contribEntries]
  | cons e rest ih =>
    have hch0 : resolveAt c (p ++ [e.1]) = some e.2 :=
      hch e (List.mem_cons_self _ _)
    have ihr := ih (fun x hx => hch x (List.mem_cons_of_mem _ hx))
    obtain ⟨nm, ch⟩ := e
    cases ch with
    | file ct =>
      have hdc : dirChildren p ((nm, FSNode.file ct) :: rest) =
          dirChildren p rest := by
        simp [dirChildren, List.filterMap_cons]
      have hfc : fileChildren p ((nm, FSNode.file ct) :: rest) =
          ⟨p ++ [nm]⟩ :: fileChildren p rest := by
        simp [fileChildren, List.filterMap_cons]
      rw [hdc, hfc, List.map_cons, msum_cons]
      cases ct with
      | some t =>
        rw [fcContrib_fileGate hch0]
        show msum ((dirChildren p rest).map (dcContrib c)) +
          (fileGate c (p ++ [nm]) t +
            msum ((fileChildren p rest).map (fcContrib c))) =
          fileGate c (p ++ [nm]) t + contribEntries c p rest
        rw [← ihr]
        abel
      | none =>
        rw [fcContrib_zero_of_bad hch0]
        show msum ((dirChildren p rest).map (dcContrib c)) +
          (0 + msum ((fileChildren p rest).map (fcContrib c))) =
          contribEntries c p rest
        rw [zero_add, ihr]
    | dir d =>
      have hdc : dirChildren p ((nm, FSNode.dir d) :: rest) =
          (p ++ [nm]) :: dirChildren p rest := by
        simp [dirChildren, List.filterMap_cons]
      have hfc : fileChildren p ((nm, FSNode.dir d) :: rest) =
          fileChildren p rest := by
        simp [fileChildren, List.filterMap_cons]
      rw [hdc, hfc, List.map_cons, msum_cons, dcContrib_of_dir hch0]
      show (match c.shouldExploreDir (p ++ [nm]) with
            | Except.ok true => contribNode c (FSNode.dir d) (p ++ [nm])
            | _ => 0) +
          msum ((dirChildren p rest).map (dcContrib c)) +
          msum ((fileChildren p rest).map (fcContrib c)) =
        contribEntries c p ((nm, FSNode.dir d) :: rest)
      rw [add_assoc, ihr]
      rfl
    | other =>
      have hdc : dirChildren p ((nm, FSNode.other) :: rest) =
          dirChildren p rest := by
        simp [dirChildren, List.filterMap_cons]
      have hfc : fileChildren p ((nm, FSNode.other) :: rest) =
          fileChildren p rest := by
        simp [fileChildren, List.filterMap_cons]
      rw [hdc, hfc, ihr]
      rfl

theorem notifyGenF_ended {g : GenState} (h : notifyGenF g = GenState.ended) :
    g = GenState.ended := by
  cases g <;> simp [notifyGenF] at h ⊢

theorem readFileSem_total {c : Config} {q : FPath} {ct : Option String}
    (htot : totalB c.fs = true) (h : resolveAt c q = some (FSNode.file ct)) :
    ∃ t, readFileSem c q = Except.ok t := by
  cases ct with
  | some t => exact ⟨t, by simp [readFileSem, h]⟩
  | none =>
    have := totalB_resolve htot h
    simp [totalB] at this

theorem readdirSem_total {c : Config} {q : FPath}
    {d : Option (List (String × FSNode))} (htot : totalB c.fs = true)
    (h : resolveAt c q = some (FSNode.dir d)) :
    ∃ es, readdirSem c q = Except.ok es := by
  cases d with
  | some es => exact ⟨es, by simp [readdirSem, h]⟩
  | none =>
    have := totalB_resolve htot h
    simp [totalB] at this

/-! ## Preservation of the conservation invariant -/

theorem invC_gen (c : Config) (s : MState) (hI : InvC c s) :
    InvC c (genStepF s) := by
  unfold genStepF
  split
  · split
    · rename_i r rest hq
      refine ⟨hI.noErr, ?_, ?_⟩
      · rw [← hI.conserved]
        simp only [gather, hq, pathsM_cons, pathsM_append, pathsM_singleton,
          pathsM_nil]
        abel
      · intro hg
        simp at hg
    · rename_i hbuf
      split
      · rename_i e herr
        exfalso
        rw [hI.noErr] at herr
        exact Option.noConfusion herr
      · split
        · rename_i hdone
          exact ⟨hI.noErr, hI.conserved, fun _ => ⟨hdone, hbuf⟩⟩
        · refine ⟨hI.noErr, hI.conserved, ?_⟩
          intro hg
          simp at hg
  · exact hI

theorem invC_wake (c : Config) (s : MState) (i : Nat) (hI : InvC c s) :
    InvC c (wakeF s i) := by
  unfold wakeF
  split
  · rename_i hget
    have hws := msum_map_set (wContrib c) s.workers i WorkerState.atTop
      WorkerState.woken hget
    rw [wContrib_atTop, wContrib_woken, add_zero, add_zero] at hws
    refine ⟨hI.noErr, ?_, hI.endedDone⟩
    rw [← hI.conserved]
    simp only [gather]
    rw [hws]
  · exact hI

theorem invC_ioRead (c : Config) (s : MState) (i : Nat)
    (htot : totalB c.fs = true) (hB : InvB s) (ht : TypInv c s) (hI : InvC c s) :
    InvC c (ioReadF c s i) := by
  unfold ioReadF
  split
  · rename_i f hget
    have hwf : workerOkT c (WorkerState.awaitingRead f) :=
      ht.wk _ (List.get?_mem hget)
    obtain ⟨ct, hres0⟩ := hwf
    split
    · rename_i t hsem
      have hres := readFileSem_ok hsem
      have hg2 : (notifyWorkersF s.workers).get? i =
          some (WorkerState.awaitingRead f) := by
        rw [get?_notify, hget]; rfl
      have hws := msum_map_set (wContrib c) (notifyWorkersF s.workers) i
        WorkerState.atTop (WorkerState.awaitingRead f) hg2
      rw [wContrib_atTop, wContrib_ar, add_zero, msum_notify] at hws
      refine ⟨hI.noErr, ?_, ?_⟩
      · rw [← hI.conserved]
        simp only [gather, List.map_append, msum_map_append, List.map_cons,
          List.map_nil, msum_singleton, msum_append]
        rw [← hws, rdContrib_of_res hres]
        abel
      · intro hg
        have := hI.endedDone hg
        obtain ⟨hna⟩ := hB.doneEmpty this.1
        exact absurd (by assumption) (fun h2 =>
          awaiting_mem_not_noAwait hget rfl h2)
    · rename_i e hsem
      exfalso
      obtain ⟨t, hok⟩ := readFileSem_total htot hres0
      rw [hok] at hsem
      exact Except.noConfusion hsem
  · exact hI

theorem invC_ioList (c : Config) (s : MState) (i : Nat)
    (hnd : nodupB c.fs = true) (htot : totalB c.fs = true)
    (hrootDir : ∃ es, c.fs = FSNode.dir (some es))
    (hB : InvB s) (ht : TypInv c s) (hI : InvC c s) :
    InvC c (ioListF c s i) := by
  unfold ioListF
  split
  · rename_i p hget
    have hwf : workerOkT c (WorkerState.awaitingReaddir p) :=
      ht.wk _ (List.get?_mem hget)
    split
    · rename_i es hsem
      have hres := readdirSem_ok hsem
      have hnd2 : nodupStr (es.map Prod.fst) = true := by
        have := nodupB_resolve hnd hres
        simp only [nodupB, Bool.and_eq_true] at this
        exact this.1
      have hch : ∀ e ∈ es, resolveAt c (p ++ [e.1]) = some e.2 := by
        intro e he
        exact resolveAt_child hres hnd2 (by cases e; exact he)
      have hsplit := contribEntries_split c p es hch
      have hds : dsContrib c p = contribEntries c p es := by
        rw [dsContrib_res hres]
        rfl
      rw [pushEntries_spec]
      refine ⟨hI.noErr, ?_, ?_⟩
      · rw [← hI.conserved]
        simp only [gather, List.map_append, msum_map_append, msum_append]
        split
        · have hg2 : (notifyWorkersF s.workers).get? i =
              some (WorkerState.awaitingReaddir p) := by
            rw [get?_notify, hget]; rfl
          have hws := msum_map_set (wContrib c) (notifyWorkersF s.workers) i
            WorkerState.atTop (WorkerState.awaitingReaddir p) hg2
          rw [wContrib_atTop, wContrib_ad, add_zero, msum_notify] at hws
          rw [← hws, hds, ← hsplit]
          abel
        · have hws := msum_map_set (wContrib c) s.workers i
            WorkerState.atTop (WorkerState.awaitingReaddir p) hget
          rw [wContrib_atTop, wContrib_ad, add_zero] at hws
          rw [← hws, hds, ← hsplit]
          abel
      · intro hg
        have := hI.endedDone hg
        obtain ⟨hna⟩ := hB.doneEmpty this.1
        exact absurd (by assumption) (fun h2 =>
          awaiting_mem_not_noAwait hget rfl h2)
    · rename_i e hsem
      exfalso
      rcases hwf with hroot | ⟨d, hdir⟩
      · obtain ⟨esR, hfs⟩ := hrootDir
        have hres : resolveAt c p = some (FSNode.dir (some esR)) := by
          rw [hroot, resolveAt_root, hfs]
        obtain ⟨es2, hok⟩ := readdirSem_total htot hres
        rw [hok] at hsem
        exact Except.noConfusion hsem
      · obtain ⟨es2, hok⟩ := readdirSem_total htot hdir
        rw [hok] at hsem
        exact Except.noConfusion hsem
  · exact hI

theorem invC_wstep (c : Config) (s : MState) (i : Nat) (hcr : cleanRun c)
    (hB : InvB s) (hI : InvC c s) : InvC c (wstepF c s i) := by
  obtain ⟨hnd, htot, hrootDir, hpd, hpf, hpy⟩ := hcr
  unfold wstepF
  split
  · rename_i hget
    split
    · rename_i herrS
      exfalso
      rw [hI.noErr] at herrS
      simp at herrS
    · split
      · rename_i r restYC hq
        have hde : s.isDone = true → False := by
          intro hd
          have he := (hB.doneEmpty hd).1
          simp [allQueuesEmptyB, hq] at he
        split
        · rename_i hy
          refine ⟨hI.noErr, ?_, ?_⟩
          · rw [← hI.conserved]
            simp only [gather, hq, List.map_cons, msum_cons, pathsM_append,
              pathsM_singleton]
            rw [ycContrib_true hy]
            abel
          · intro hg
            exact absurd (hI.endedDone (notifyGenF_ended hg)).1 hde
        · rename_i hy
          refine ⟨hI.noErr, ?_, ?_⟩
          · rw [← hI.conserved]
            simp only [gather, hq, List.map_cons, msum_cons]
            rw [ycContrib_false hy]
            abel
          · intro hg
            exact absurd (hI.endedDone hg).1 hde
        · rename_i e hy
          exfalso
          obtain ⟨b, hb⟩ := hpy r
          rw [hb] at hy
          exact Except.noConfusion hy
      · split
        · rename_i f restR hq
          have hde : s.isDone = true → False := by
            intro hd
            have he := (hB.doneEmpty hd).1
            simp [allQueuesEmptyB, hq] at he
          have hws := msum_map_set (wContrib c) s.workers i
            (WorkerState.awaitingRead f) WorkerState.atTop hget
          rw [wContrib_atTop, wContrib_ar, add_zero] at hws
          refine ⟨hI.noErr, ?_, ?_⟩
          · rw [← hI.conserved]
            simp only [gather, hq, List.map_cons, msum_cons]
            rw [hws]
            abel
          · intro hg
            exact absurd (hI.endedDone hg).1 hde
        · split
          · rename_i f restFC hq
            have hde : s.isDone = true → False := by
              intro hd
              have he := (hB.doneEmpty hd).1
              simp [allQueuesEmptyB, hq] at he
            split
            · rename_i hp
              refine ⟨hI.noErr, ?_, ?_⟩
              · rw [← hI.conserved]
                simp only [gather, hq, List.map_cons, msum_cons,
                  List.map_append, msum_map_append, List.map_nil,
                  msum_singleton, msum_append, msum_notify, msum_nil]
                rw [fcContrib_true hp]
                abel
              · intro hg
                exact absurd (hI.endedDone hg).1 hde
            · rename_i hp
              refine ⟨hI.noErr, ?_, ?_⟩
              · rw [← hI.conserved]
                simp only [gather, hq, List.map_cons, msum_cons]
                rw [fcContrib_false hp]
                abel
              · intro hg
                exact absurd (hI.endedDone hg).1 hde
            · rename_i e hp
              exfalso
              obtain ⟨b, hb⟩ := hpf f
              rw [hb] at hp
              exact Except.noConfusion hp
          · split
            · rename_i p restDS hq
              have hde : s.isDone = true → False := by
                intro hd
                have he := (hB.doneEmpty hd).1
                simp [allQueuesEmptyB, hq] at he
              have hws := msum_map_set (wContrib c) s.workers i
                (WorkerState.awaitingReaddir p) WorkerState.atTop hget
              rw [wContrib_atTop, wContrib_ad, add_zero] at hws
              refine ⟨hI.noErr, ?_, ?_⟩
              · rw [← hI.conserved]
                simp only [gather, hq, List.map_cons, msum_cons]
                rw [hws]
                abel
              · intro hg
                exact absurd (hI.endedDone hg).1 hde
            · split
              · rename_i p restDC hq
                have hde : s.isDone = true → False := by
                  intro hd
                  have he := (hB.doneEmpty hd).1
                  simp [allQueuesEmptyB, hq] at he
                split
                · rename_i hp
                  refine ⟨hI.noErr, ?_, ?_⟩
                  · rw [← hI.conserved]
                    simp only [gather, hq, List.map_cons, msum_cons,
                      List.map_append, msum_map_append, List.map_nil,
                      msum_singleton, msum_append, msum_notify, msum_nil]
                    rw [dcContrib_true hp]
                    abel
                  · intro hg
                    exact absurd (hI.endedDone hg).1 hde
                · rename_i hp
                  refine ⟨hI.noErr, ?_, ?_⟩
                  · rw [← hI.conserved]
                    simp only [gather, hq, List.map_cons, msum_cons]
                    rw [dcContrib_false hp]
                    abel
                  · intro hg
                    exact absurd (hI.endedDone hg).1 hde
                · rename_i e hp
                  exfalso
                  obtain ⟨b, hb⟩ := hpd p
                  rw [hb] at hp
                  exact Except.noConfusion hp
              · split
                · have hg2 : (notifyWorkersF s.workers).get? i =
                      some WorkerState.atTop := by
                    rw [get?_notify, hget]; rfl
                  have hws := msum_map_set (wContrib c) (notifyWorkersF s.workers)
                    i WorkerState.finished WorkerState.atTop hg2
                  rw [wContrib_atTop, wContrib_finished, add_zero, add_zero,
                    msum_notify] at hws
                  refine ⟨hI.noErr, ?_, ?_⟩
                  · rw [← hI.conserved]
                    simp only [gather]
                    rw [hws]
                  · intro hg
                    obtain ⟨hdone, hbuf⟩ := hI.endedDone (notifyGenF_ended hg)
                    exact ⟨rfl, hbuf⟩
                · have hws := msum_map_set (wContrib c) s.workers i
                    WorkerState.parked WorkerState.atTop hget
                  rw [wContrib_atTop, wContrib_parked, add_zero, add_zero] at hws
                  refine ⟨hI.noErr, ?_, ?_⟩
                  · rw [← hI.conserved]
                    simp only [gather]
                    rw [hws]
                  · intro hg
                    exact hI.endedDone hg
  · exact hI

theorem invC_apply (c : Config) (s : MState) (a : Action) (hcr : cleanRun c)
    (hB : InvB s) (ht : TypInv c s) (hI : InvC c s) :
    InvC c (applyAction c s a) := by
  obtain ⟨hnd, htot, hrootDir, hpreds⟩ := hcr
  cases a with
  | work i => exact invC_wstep c s i ⟨hnd, htot, hrootDir, hpreds⟩ hB hI
  | ioRead i => exact invC_ioRead c s i htot hB ht hI
  | ioList i => exact invC_ioList c s i hnd htot hrootDir hB ht hI
  | wake i => exact invC_wake c s i hI
  | pull => exact invC_gen c s hI

theorem invC_runActions (c : Config) (s : MState) (acts : List Action)
    (hcr : cleanRun c) (hB : InvB s) (ht : TypInv c s) (hI : InvC c s) :
    InvC c (runActions c s acts) := by
  induction acts generalizing s with
  | nil => exact hI
  | cons a rest ih =>
    exact ih _ (invB_apply c s a hB) (typ_apply c s a hcr.1 ht)
      (invC_apply c s a hcr hB ht hI)

theorem invC_init (c : Config) (n : Nat) : InvC c (initState c n) := by
  refine ⟨rfl, ?_, ?_⟩
  · show gather c (initState c n) = eligibleM c
    simp only [gather, initState, List.map_cons, List.map_nil, msum_cons,
      pathsM_nil]
    rw [dsContrib_res (resolveAt_root c)]
    have hz : msum ((List.replicate n WorkerState.atTop).map (wContrib c)) = 0 := by
      apply msum_map_zero
      intro w hw
      have : w = WorkerState.atTop := List.eq_of_mem_replicate hw
      rw [this, wContrib_atTop]
    rw [hz]
    simp only [msum_nil, add_zero, zero_add, eligibleM]
  · intro hg
    simp [initState] at hg

/-! ## Terminal-state extraction -/

theorem empty_of_isEmpty {α : Type} {l : List α} (h : l.isEmpty = true) :
    l = [] := by
  cases l with
  | nil => rfl
  | cons x xs => simp [List.isEmpty] at h

theorem wContrib_zero_of_notAwait {c : Config} {w : WorkerState}
    (h : isAwaitingB w = false) : wContrib c w = 0 := by
  cases w <;> first | rfl | simp [isAwaitingB] at h

theorem allQueues_nil {s : MState} (h : allQueuesEmptyB s = true) :
    s.qYieldCheck = [] ∧ s.qRead = [] ∧ s.qFileCheck = [] ∧
      s.qDirStat = [] ∧ s.qDirCheck = [] := by
  simp only [allQueuesEmptyB, Bool.and_eq_true] at h
  exact ⟨empty_of_isEmpty h.1.1.1.1, empty_of_isEmpty h.1.1.1.2,
    empty_of_isEmpty h.1.1.2, empty_of_isEmpty h.1.2, empty_of_isEmpty h.2⟩

theorem gather_at_ended {c : Config} {s : MState} (hB : InvB s) (hI : InvC c s)
    (hg : s.genState = GenState.ended) : pathsM s.yielded = eligibleM c := by
  obtain ⟨hdone, hbuf⟩ := hI.endedDone hg
  obtain ⟨hempty, hna⟩ := hB.doneEmpty hdone
  obtain ⟨h1, h2, h3, h4, h5⟩ := allQueues_nil hempty
  have hcons := hI.conserved
  unfold gather at hcons
  rw [h1, h2, h3, h4, h5, hbuf] at hcons
  have hw : msum (s.workers.map (wContrib c)) = 0 :=
    msum_map_zero (fun w hw => wContrib_zero_of_notAwait (hna w hw))
  rw [hw] at hcons
  simp only [List.map_nil, msum_nil, pathsM_nil, add_zero] at hcons
  exact hcons

theorem length_workers_apply (c : Config) (s : MState) (a : Action) :
    (applyAction c s a).workers.length = s.workers.length := by
  cases a with
  | work i =>
    simp only [applyAction]
    unfold wstepF
    repeat' split
    all_goals simp [List.length_set, length_notify]
  | ioRead i =>
    simp only [applyAction]
    unfold ioReadF
    repeat' split
    all_goals simp [List.length_set, length_notify]
  | ioList i =>
    simp only [applyAction]
    unfold ioListF
    repeat' split
    all_goals simp [pushEntries_spec, List.length_set, length_notify]
  | wake i =>
    simp only [applyAction]
    unfold wakeF
    repeat' split
    all_goals simp [List.length_set]
  | pull =>
    simp only [applyAction]
    unfold genStepF
    repeat' split
    all_goals rfl

theorem length_workers_run (c : Config) (s : MState) (acts : List Action) :
    (runActions c s acts).workers.length = s.workers.length := by
  induction acts generalizing s with
  | nil => rfl
  | cons a rest ih =>
    rw [runActions, ih, length_workers_apply]

/-- The path an event touches. -/
def evPath : IOEvent → FPath
  | IOEvent.readdirEv p => p
  | IOEvent.readFileEv p => p
  | IOEvent.evalDirPred p => p
  | IOEvent.evalFilePred p => p
  | IOEvent.evalYieldPred p => p

theorem error_stays (c : Config) (s : MState) (a : Action) {e : Err}
    (h : s.error = some e) : ∃ e2, (applyAction c s a).error = some e2 := by
  cases a with
  | work i =>
    simp only [applyAction]
    unfold wstepF
    repeat' split
    all_goals first | exact ⟨e, h⟩ | exact ⟨_, rfl⟩
  | ioRead i =>
    simp only [applyAction]
    unfold ioReadF
    repeat' split
    all_goals first | exact ⟨e, h⟩ | exact ⟨_, rfl⟩
  | ioList i =>
    simp only [applyAction]
    unfold ioListF
    split
    · split
      · rw [pushEntries_spec]
        exact ⟨e, h⟩
      · exact ⟨_, rfl⟩
    · exact ⟨e, h⟩
  | wake i =>
    simp only [applyAction]
    unfold wakeF
    repeat' split
    all_goals exact ⟨e, h⟩
  | pull =>
    simp only [applyAction]
    unfold genStepF
    repeat' split
    all_goals exact ⟨e, h⟩

theorem no_append_after_error (c : Config) (s : MState) (a : Action)
    (h : s.error ≠ none) :
    (applyAction c s a).outputBuffer.IsSuffix s.outputBuffer ∧
      (applyAction c s a).isDone = s.isDone := by
  have hsome : s.error.isSome = true := by
    cases ho : s.error with
    | none => exact absurd ho h
    | some e => rfl
  cases a with
  | work i =>
    simp only [applyAction]
    unfold wstepF
    split
    · rw [if_pos hsome]
      exact ⟨List.suffix_refl _, rfl⟩
    · exact ⟨List.suffix_refl _, rfl⟩
  | ioRead i =>
    simp only [applyAction]
    unfold ioReadF
    repeat' split
    all_goals exact ⟨List.suffix_refl _, rfl⟩
  | ioList i =>
    simp only [applyAction]
    unfold ioListF
    split
    · split
      · rw [pushEntries_spec]
        exact ⟨List.suffix_refl _, rfl⟩
      · exact ⟨List.suffix_refl _, rfl⟩
    · exact ⟨List.suffix_refl _, rfl⟩
  | wake i =>
    simp only [applyAction]
    unfold wakeF
    repeat' split
    all_goals exact ⟨List.suffix_refl _, rfl⟩
  | pull =>
    simp only [applyAction]
    unfold genStepF
    split
    · split
      · rename_i r rest hq
        refine ⟨?_, rfl⟩
        rw [hq]
        exact ⟨[r], rfl⟩
      · repeat' split
        all_goals exact ⟨List.suffix_refl _, rfl⟩
    · exact ⟨List.suffix_refl _, rfl⟩

theorem init_shape {fs : FSNode} {o : ExploreFileArgs} {c : Config} {s0 : MState}
    (hinit : exploreFilesInit fs o = Except.ok (c, s0)) :
    c = configOf fs o ∧ ∃ n : Nat, s0 = initState c n := by
  unfold exploreFilesInit at hinit
  split at hinit
  · exact absurd hinit (by simp)
  · injection hinit with h2
    injection h2 with hc hs
    subst hc
    exact ⟨rfl, _, hs.symm⟩

/-! ## Concrete runs used as witnesses and counterexamples -/

/-- A root directory holding a single readable file `a`. -/
def fsA : FSNode := FSNode.dir (some [("a", FSNode.file (some "x"))])

/-- Options whose directory predicate rejects everything (including the
root), with all other predicates accepting. -/
def oDeny : ExploreFileArgs where
  rootDir := []
  shouldExploreDir := fun _ => Except.ok false
  shouldReadFile := fun _ => Except.ok true
  workerCount := some 1

/-- Options accepting everything. -/
def oAccept : ExploreFileArgs where
  rootDir := []
  shouldExploreDir := fun _ => Except.ok true
  shouldReadFile := fun _ => Except.ok true
  workerCount := some 1

def cfgDeny : Config := configOf fsA oDeny

def cfgAccept : Config := configOf fsA oAccept

/-- A deterministic single-worker schedule that drains the tree `fsA` and
finishes the generator. -/
def actsLin : List Action :=
  [Action.work 0, Action.ioList 0, Action.work 0, Action.work 0,
   Action.ioRead 0, Action.work 0, Action.work 0, Action.pull, Action.pull]

/-- An empty root directory, walked by two workers. -/
def fsEmpty : FSNode := FSNode.dir (some [])

def oTwo : ExploreFileArgs where
  rootDir := []
  shouldExploreDir := fun _ => Except.ok true
  shouldReadFile := fun _ => Except.ok true
  workerCount := some 2

def cfgTwo : Config := configOf fsEmpty oTwo

/-- Schedule for `cfgTwo`: worker 1 parks, worker 0 finishes the walk and
declares completion, then the woken worker 1 resumes to exit. -/
def actsTwo : List Action :=
  [Action.work 0, Action.work 1, Action.ioList 0, Action.work 0, Action.wake 1]

/-- A root with two unreadable files, walked by two workers. -/
def fsBad2 : FSNode :=
  FSNode.dir (some [("f1", FSNode.file none), ("f2", FSNode.file none)])

def oBad2 : ExploreFileArgs where
  rootDir := []
  shouldExploreDir := fun _ => Except.ok true
  shouldReadFile := fun _ => Except.ok true
  workerCount := some 2

def cfgBad2 : Config := configOf fsBad2 oBad2

/-- Schedule for `cfgBad2` up to the first read failure, following the JS
event loop exactly: worker 0 lists the root and then runs synchronously to
its read of `f1`; the parked worker 1 resumes on the notification and runs
to its read of `f2`; then the read of `f1` rejects first. -/
def actsBad2a : List Action :=
  [Action.work 0, Action.work 1, Action.ioList 0, Action.work 0, Action.work 0,
   Action.wake 1, Action.work 1, Action.work 1, Action.ioRead 0]

/-- One more step: the second in-flight read also fails and overwrites the
error slot. -/
def actsBad2b : List Action := actsBad2a ++ [Action.ioRead 1]

/-- A root whose listing fails. -/
def fsBadRoot : FSNode := FSNode.dir none

def oBadRoot : ExploreFileArgs where
  rootDir := []
  shouldExploreDir := fun _ => Except.ok true
  shouldReadFile := fun _ => Except.ok true
  workerCount := some 1

def cfgBadRoot : Config := configOf fsBadRoot oBadRoot

/-- Schedule for `cfgBadRoot`: the single worker fails the root listing,
exits on observing the error, and the consumer pull observes the failure. -/
def actsBadRoot : List Action :=
  [Action.work 0, Action.ioList 0, Action.work 0, Action.pull]

def stBadRoot : MState := runActions cfgBadRoot (initState cfgBadRoot 1) actsBadRoot

/-- A named root directory, for the seeding counterexample. -/
def oNamedRoot : ExploreFileArgs where
  rootDir := ["r"]
  shouldExploreDir := fun _ => Except.ok true
  shouldReadFile := fun _ => Except.ok true
  workerCount := some 1

def cfgNamedRoot : Config := configOf fsEmpty oNamedRoot

/-- A root containing a socket-like entry (neither file nor directory) next
to a regular file. -/
def fsOther : FSNode :=
  FSNode.dir (some [("s", FSNode.other), ("a", FSNode.file (some "x"))])

def oOther : ExploreFileArgs where
  rootDir := []
  shouldExploreDir := fun _ => Except.ok true
  shouldReadFile := fun _ => Except.ok true
  workerCount := some 1

def cfgOther : Config := configOf fsOther oOther

/-- A directory predicate that throws on everything. -/
def cfgDirThrow : Config where
  root := []
  fs := fsA
  shouldExploreDir := fun _ => Except.error "boom"
  shouldReadFile := fun _ => Except.ok true
  shouldYieldFile := none

/-- A hand-built state with a recorded error, used to instantiate the
per-step error-slot theorems. -/
def stErr : MState := { initState cfgAccept 1 with error := some "boom" }

theorem wstep_error_exit {c : Config} {s : MState} {i : Nat}
    (hget : s.workers.get? i = some WorkerState.atTop) {e : Err}
    (herr : s.error = some e) :
    wstepF c s i = { s with workers := s.workers.set i WorkerState.finished } := by
  unfold wstepF
  rw [hget, herr]
  rfl

theorem wstep_exit_get {c : Config} {s : MState} {i : Nat}
    (hget : s.workers.get? i = some WorkerState.atTop) {e : Err}
    (herr : s.error = some e) :
    (wstepF c s i).workers.get? i = some WorkerState.finished := by
  rw [wstep_error_exit hget herr]
  exact get?_set_self hget _

/-! ## Claim theorems -/

/-- C1 (counterexample to the claim as stated): with a root directory
holding one readable file and a `shouldExploreDir` rejecting every path
(the root included), `exploreFilesAsync` still yields that file, although
the claimed eligible set — which requires every ancestor directory,
including the root, to satisfy `shouldExploreDir` — is empty.  The root is
seeded straight into the directory-stat queue and is never subjected to
`shouldExploreDir`. -/
theorem c1_yielded_set_counterexample :
    exploreFilesInit fsA oDeny = Except.ok (cfgDeny, initState cfgDeny 1) ∧
    (runActions cfgDeny (initState cfgDeny 1) actsLin).genState =
      GenState.ended ∧
    (runActions cfgDeny (initState cfgDeny 1) actsLin).yielded.map
      (fun r => r.path) = [["a"]] ∧
    claimedEligibleM cfgDeny = 0 :=
  ⟨rfl, rfl, rfl, rfl⟩

/-- C1 (amended): for every directory tree (distinct entry names, no failing
I/O, a directory at the root), every triple of non-throwing predicates,
every validated worker count and every schedule under which the produced
sequence finishes, the set of yielded paths equals the set of files under
the root that pass `shouldReadFile` and the effective `shouldYieldFile` and
all of whose strict ancestor directories below the root pass
`shouldExploreDir`; the root itself is exempt from `shouldExploreDir`.
The right-hand side `eligibleM c` does not depend on the worker count or
the schedule, so the yielded set is the same for every workerCount (in
particular for 1 through 8). -/
theorem c1_yielded_set (fs : FSNode) (o : ExploreFileArgs) (c : Config)
    (s0 : MState) (hinit : exploreFilesInit fs o = Except.ok (c, s0))
    (hclean : cleanRun c) (acts : List Action)
    (hend : (runActions c s0 acts).genState = GenState.ended) (q : FPath) :
    q ∈ (runActions c s0 acts).yielded.map (fun r => r.path) ↔
      q ∈ eligibleM c := by
  obtain ⟨-, n, rfl⟩ := init_shape hinit
  have hB := invB_runActions c _ acts (invB_init c n)
  have hI := invC_runActions c _ acts hclean (invB_init c n) (typ_init c n)
    (invC_init c n)
  rw [← mem_pathsM, gather_at_ended hB hI hend]

theorem c1_yielded_set_witness :
    (["a"] ∈ (runActions cfgAccept (initState cfgAccept 1) actsLin).yielded.map
      (fun r => r.path) ↔ ["a"] ∈ eligibleM cfgAccept) :=
  c1_yielded_set fsA oAccept cfgAccept (initState cfgAccept 1) rfl
    ⟨rfl, rfl, ⟨_, rfl⟩, fun _ => ⟨true, rfl⟩, fun _ => ⟨true, rfl⟩,
      fun _ => ⟨true, rfl⟩⟩ actsLin rfl ["a"]

/-- C2 (counterexample to the claim as stated): two workers await reads of
two unreadable files; the first rejection writes the error slot, and the
second rejection overwrites it.  The slot is therefore written twice and
the later error replaces the earlier one, rather than being dropped. -/
theorem c2_first_error_counterexample :
    exploreFilesInit fsBad2 oBad2 = Except.ok (cfgBad2, initState cfgBad2 2) ∧
    (runActions cfgBad2 (initState cfgBad2 2) actsBad2a).error =
      some "EREAD: f1" ∧
    (runActions cfgBad2 (initState cfgBad2 2) actsBad2b).error =
      some "EREAD: f2" :=
  ⟨rfl, rfl, rfl⟩

/-- C2 (amended): once the error slot is set it is never cleared — every
step leaves it holding some error — but a later error may overwrite the
stored value (the counterexample exhibits such an overwrite), and the
consumer observes whichever value is current at the pull that fails. -/
theorem c2_error_slot (c : Config) (s : MState) (a : Action) (e : Err)
    (h : s.error = some e) : ∃ e2, (applyAction c s a).error = some e2 :=
  error_stays c s a h

theorem c2_error_slot_witness :
    ∃ e2, (applyAction cfgAccept stErr Action.pull).error = some e2 :=
  c2_error_slot cfgAccept stErr Action.pull "boom" rfl

/-- C3 (counterexample to the claim as stated): in a run whose root listing
fails, the error slot is set, the lone worker exits without decrementing the
active count, the generator observes the error, and the machine reaches a
state in which every further scheduling action is a no-op while the done
flag is still unset — so the done flag is never set after the error,
contrary to the claim. -/
theorem c3_done_counterexample :
    stBadRoot.error = some "EREADDIR: " ∧
    stBadRoot.isDone = false ∧
    stBadRoot.genState = GenState.failed "EREADDIR: " ∧
    applyAction cfgBadRoot stBadRoot = fun _ => stBadRoot := by
  refine ⟨rfl, rfl, rfl, funext ?_⟩
  intro a
  cases a with
  | work i => cases i with | zero => rfl | succ j => rfl
  | ioRead i => cases i with | zero => rfl | succ j => rfl
  | ioList i => cases i with | zero => rfl | succ j => rfl
  | wake i => cases i with | zero => rfl | succ j => rfl
  | pull => rfl

/-- C3 (amended): after the error slot is set, no step appends to the
Output Buffer — each step leaves the buffer a suffix of what it was
(workers never append; only the consumer pops) — and no step changes the
done flag, so in an error run the done flag is never set afterwards (the
counterexample exhibits a failed run ending quiescent with the flag
unset). -/
theorem c3_after_error (c : Config) (s : MState) (a : Action)
    (h : s.error ≠ none) :
    (applyAction c s a).outputBuffer.IsSuffix s.outputBuffer ∧
      (applyAction c s a).isDone = s.isDone :=
  no_append_after_error c s a h

theorem c3_after_error_witness :
    ((applyAction cfgAccept stErr (Action.work 0)).outputBuffer.IsSuffix
        stErr.outputBuffer ∧
      (applyAction cfgAccept stErr (Action.work 0)).isDone = stErr.isDone) :=
  c3_after_error cfgAccept stErr (Action.work 0)
    (fun hn => Option.noConfusion hn)

/-- C4 (counterexample to the claim as stated): after the last working
worker declares completion, a woken parked worker increments the
active-worker count before exiting, reaching a state with `done` set, all
queues empty and an active count of one — so "done iff queues empty and
active count zero" fails in the only-if direction. -/
theorem c4_done_iff_counterexample :
    exploreFilesInit fsEmpty oTwo = Except.ok (cfgTwo, initState cfgTwo 2) ∧
    (runActions cfgTwo (initState cfgTwo 2) actsTwo).isDone = true ∧
    allQueuesEmptyB (runActions cfgTwo (initState cfgTwo 2) actsTwo) = true ∧
    (runActions cfgTwo (initState cfgTwo 2) actsTwo).activeWorkers = 1 ∧
    ¬ ((runActions cfgTwo (initState cfgTwo 2) actsTwo).isDone = true ↔
        allQueuesEmptyB (runActions cfgTwo (initState cfgTwo 2) actsTwo) =
          true ∧
        (runActions cfgTwo (initState cfgTwo 2) actsTwo).activeWorkers = 0) :=
  ⟨rfl, rfl, rfl, rfl, by decide⟩

/-- C4 (amended): in every reachable state of a run, if the done flag is
set then all five stage queues are empty; and conversely if all queues are
empty and the active-worker count is zero then the done flag is set.  (The
original iff fails only in that `done` does not force the active count to
zero: workers woken after completion transiently re-raise it.) -/
theorem c4_done_invariant (fs : FSNode) (o : ExploreFileArgs) (c : Config)
    (s0 : MState) (hinit : exploreFilesInit fs o = Except.ok (c, s0))
    (acts : List Action) :
    ((runActions c s0 acts).isDone = true →
      allQueuesEmptyB (runActions c s0 acts) = true) ∧
    ((runActions c s0 acts).activeWorkers = 0 →
      allQueuesEmptyB (runActions c s0 acts) = true →
      (runActions c s0 acts).isDone = true) := by
  obtain ⟨-, n, rfl⟩ := init_shape hinit
  have hB := invB_runActions c _ acts (invB_init c n)
  refine ⟨fun hd => (hB.doneEmpty hd).1, fun hact hempty => ?_⟩
  cases herr : (runActions c (initState c n) acts).error with
  | none => exact hB.emptyDone herr hact hempty
  | some e =>
    exfalso
    have h1 := hB.errActive (by simp [herr])
    omega

theorem c4_done_invariant_witness :
    (((runActions cfgTwo (initState cfgTwo 2) actsTwo).isDone = true →
      allQueuesEmptyB (runActions cfgTwo (initState cfgTwo 2) actsTwo) =
        true) ∧
     ((runActions cfgTwo (initState cfgTwo 2) actsTwo).activeWorkers = 0 →
      allQueuesEmptyB (runActions cfgTwo (initState cfgTwo 2) actsTwo) =
        true →
      (runActions cfgTwo (initState cfgTwo 2) actsTwo).isDone = true)) :=
  c4_done_invariant fsEmpty oTwo cfgTwo (initState cfgTwo 2) rfl actsTwo

/-- C5: a workerCount that is not a positive integer (zero, negative, or
non-integral) makes `exploreFilesAsync` fail with the invalid-configuration
error during validation, before the shared state exists: no run state is
ever constructed, so no directory is listed and no file is read under any
schedule. -/
theorem c5_invalid_worker_count (fs : FSNode) (o : ExploreFileArgs) (wc : Rat)
    (hwc : o.workerCount = some wc) (hbad : ¬ wc.den = 1 ∨ wc < 1) :
    exploreFilesInit fs o =
      Except.error "workerCount must be a positive integer." ∧
    ∀ acts, exploreFilesRun fs o acts =
      Except.error "workerCount must be a positive integer." := by
  have h1 : exploreFilesInit fs o =
      Except.error "workerCount must be a positive integer." := by
    unfold exploreFilesInit
    rw [hwc]
    simp only [Option.getD_some]
    rw [if_pos hbad]
  refine ⟨h1, fun acts => ?_⟩
  unfold exploreFilesRun
  rw [h1]

/-- Options with workerCount 0. -/
def oZero : ExploreFileArgs where
  rootDir := []
  shouldExploreDir := fun _ => Except.ok true
  shouldReadFile := fun _ => Except.ok true
  workerCount := some 0

theorem c5_invalid_worker_count_witness :
    exploreFilesInit fsA oZero =
      Except.error "workerCount must be a positive integer." ∧
    exploreFilesRun fsA oZero [Action.work 0] =
      Except.error "workerCount must be a positive integer." :=
  ⟨(c5_invalid_worker_count fsA oZero 0 rfl (Or.inr (by norm_num))).1,
   (c5_invalid_worker_count fsA oZero 0 rfl (Or.inr (by norm_num))).2
     [Action.work 0]⟩

/-- C6: for every positive-integer workerCount, the number of workers
started is `min(workerCount, MAX_WORKER_COUNT)`, so any request above 8 is
silently clamped to 8; and along every schedule the number of workers (and
hence of concurrently live workers) never exceeds 8. -/
theorem c6_worker_clamp (fs : FSNode) (o : ExploreFileArgs) (wc : Rat)
    (c : Config) (s0 : MState) (hwc : o.workerCount = some wc)
    (hden : wc.den = 1) (hpos : 1 ≤ wc)
    (hinit : exploreFilesInit fs o = Except.ok (c, s0)) :
    s0.workers.length = (min wc.num MAX_WORKER_COUNT).toNat ∧
    s0.workers.length ≤ 8 ∧
    ∀ acts, countLive (runActions c s0 acts) ≤ 8 := by
  have hcond : ¬ (¬ ((o.workerCount.getD 1).den = 1) ∨
      o.workerCount.getD 1 < 1) := by
    rw [hwc]
    simp only [Option.getD_some]
    rintro (h | h)
    · exact h hden
    · exact absurd hpos (not_le.mpr h)
  unfold exploreFilesInit at hinit
  rw [if_neg hcond] at hinit
  injection hinit with h2
  injection h2 with hc hs
  subst hc
  rw [hwc] at hs
  simp only [Option.getD_some] at hs
  have hlen : s0.workers.length = (min wc.num MAX_WORKER_COUNT).toNat := by
    rw [← hs]
    simp [initState]
  have hle : (min wc.num MAX_WORKER_COUNT).toNat ≤ 8 := by
    have h8 : min wc.num MAX_WORKER_COUNT ≤ 8 := by
      simp only [MAX_WORKER_COUNT]
      exact min_le_right _ _
    omega
  refine ⟨hlen, hlen ▸ hle, fun acts => ?_⟩
  calc countLive (runActions (configOf fs o) s0 acts)
      ≤ (runActions (configOf fs o) s0 acts).workers.length :=
        List.countP_le_length _
    _ = s0.workers.length := length_workers_run _ _ _
    _ ≤ 8 := hlen ▸ hle

/-- Options requesting one hundred workers. -/
def oHundred : ExploreFileArgs where
  rootDir := []
  shouldExploreDir := fun _ => Except.ok true
  shouldReadFile := fun _ => Except.ok true
  workerCount := some 100

def cfgHundred : Config := configOf fsEmpty oHundred

theorem c6_worker_clamp_witness :
    ((initState cfgHundred 8).workers.length =
        (min (100 : Rat).num MAX_WORKER_COUNT).toNat ∧
      (initState cfgHundred 8).workers.length ≤ 8 ∧
      ∀ acts, countLive (runActions cfgHundred (initState cfgHundred 8) acts) ≤ 8) :=
  c6_worker_clamp fsEmpty oHundred 100 cfgHundred (initState cfgHundred 8)
    rfl rfl (by norm_num) rfl

/-- C7: on each run of the generator loop body (a consumer pull or the
resumption after a worker notification): a non-empty Output Buffer has one
record popped and delivered immediately — even when the error slot is
already set, so records buffered before the error are still delivered; an
empty buffer with a recorded error makes the sequence fail with exactly
that error; an empty buffer with the done flag set ends the sequence
normally; otherwise the generator parks as the single waiter, which a
worker notification turns back into a runnable (notified) generator. -/
theorem c7_pull_behavior (s : MState)
    (hready : s.genState = GenState.ready ∨ s.genState = GenState.notified) :
    (∀ r rest, s.outputBuffer = r :: rest →
      genStepF s = { s with outputBuffer := rest,
                            yielded := s.yielded ++ [r],
                            genState := GenState.ready }) ∧
    (∀ e, s.outputBuffer = [] → s.error = some e →
      genStepF s = { s with genState := GenState.failed e }) ∧
    (s.outputBuffer = [] → s.error = none → s.isDone = true →
      genStepF s = { s with genState := GenState.ended }) ∧
    (s.outputBuffer = [] → s.error = none → s.isDone = false →
      genStepF s = { s with genState := GenState.suspended }) ∧
    notifyGenF GenState.suspended = GenState.notified := by
  refine ⟨?_, ?_, ?_, ?_, rfl⟩
  · intro r rest hq
    unfold genStepF
    rw [if_pos hready, hq]
  · intro e hq herr
    unfold genStepF
    rw [if_pos hready, hq, herr]
  · intro hq herr hd
    unfold genStepF
    rw [if_pos hready, hq, herr, hd]
    rfl
  · intro hq herr hd
    unfold genStepF
    rw [if_pos hready, hq, herr, hd]
    rfl

/-- A generator-ready state holding one buffered record and an already
recorded error. -/
def stBuf : MState :=
  { initState cfgAccept 1 with outputBuffer := [⟨["a"], "x"⟩],
                               error := some "boom" }

theorem c7_pull_behavior_witness :
    genStepF stBuf = { stBuf with outputBuffer := [],
                                  yielded := stBuf.yielded ++ [⟨["a"], "x"⟩],
                                  genState := GenState.ready } :=
  (c7_pull_behavior stBuf (Or.inl rfl)).1 ⟨["a"], "x"⟩ [] rfl

/-- C8 (counterexample to the claim as stated): in the initial queue state
the directory-check queue is empty and it is the directory-stat queue that
holds exactly the root, so the first worker step lists the root directly —
the touch log of the one-step run records the root's listing and no
`shouldExploreDir` evaluation ever precedes it. -/
theorem c8_seeding_counterexample :
    exploreFilesInit fsEmpty oNamedRoot =
      Except.ok (cfgNamedRoot, initState cfgNamedRoot 1) ∧
    ¬ ((initState cfgNamedRoot 1).qDirCheck = [oNamedRoot.rootDir] ∧
       (initState cfgNamedRoot 1).qYieldCheck = [] ∧
       (initState cfgNamedRoot 1).qRead = [] ∧
       (initState cfgNamedRoot 1).qFileCheck = [] ∧
       (initState cfgNamedRoot 1).qDirStat = []) ∧
    (runActions cfgNamedRoot (initState cfgNamedRoot 1)
      [Action.work 0]).ioLog = [IOEvent.readdirEv ["r"]] :=
  ⟨rfl, by decide, rfl⟩

/-- C8 (amended): in the initial queue state of every run, the
directory-stat queue (priority 4) contains exactly the root path and the
other four stage queues are empty, so the root is listed without being
subjected to `shouldExploreDir`. -/
theorem c8_initial_queues (fs : FSNode) (o : ExploreFileArgs) (c : Config)
    (s0 : MState) (hinit : exploreFilesInit fs o = Except.ok (c, s0)) :
    s0.qDirStat = [o.rootDir] ∧ s0.qDirCheck = [] ∧ s0.qYieldCheck = [] ∧
      s0.qRead = [] ∧ s0.qFileCheck = [] := by
  obtain ⟨hc, n, hs⟩ := init_shape hinit
  subst hs
  subst hc
  exact ⟨rfl, rfl, rfl, rfl, rfl⟩

theorem c8_initial_queues_witness :
    ((initState cfgNamedRoot 1).qDirStat = [oNamedRoot.rootDir] ∧
      (initState cfgNamedRoot 1).qDirCheck = [] ∧
      (initState cfgNamedRoot 1).qYieldCheck = [] ∧
      (initState cfgNamedRoot 1).qRead = [] ∧
      (initState cfgNamedRoot 1).qFileCheck = []) :=
  c8_initial_queues fsEmpty oNamedRoot cfgNamedRoot (initState cfgNamedRoot 1)
    rfl

/-- C9: when `shouldExploreDir` throws on a dequeued directory path, the
worker records the error and its loop ends in the same step (its program
counter goes straight to `finished`); whereas when the yield predicate, the
file predicate, a file read or a directory listing throws, the worker
records the error but continues — it is still at the top of its loop — and
only the next iteration exits upon observing the error slot. -/
theorem c9_error_exit_behavior (c : Config) (s : MState) (i : Nat) (e : Err) :
    (∀ p rest, s.workers.get? i = some WorkerState.atTop → s.error = none →
      s.qYieldCheck = [] → s.qRead = [] → s.qFileCheck = [] →
      s.qDirStat = [] → s.qDirCheck = p :: rest →
      c.shouldExploreDir p = Except.error e →
      (wstepF c s i).error = some e ∧
        (wstepF c s i).workers.get? i = some WorkerState.finished) ∧
    (∀ r rest, s.workers.get? i = some WorkerState.atTop → s.error = none →
      s.qYieldCheck = r :: rest → yEff c r = Except.error e →
      (wstepF c s i).error = some e ∧
        (wstepF c s i).workers.get? i = some WorkerState.atTop ∧
        (wstepF c (wstepF c s i) i).workers.get? i =
          some WorkerState.finished) ∧
    (∀ f rest, s.workers.get? i = some WorkerState.atTop → s.error = none →
      s.qYieldCheck = [] → s.qRead = [] → s.qFileCheck = f :: rest →
      c.shouldReadFile f = Except.error e →
      (wstepF c s i).error = some e ∧
        (wstepF c s i).workers.get? i = some WorkerState.atTop ∧
        (wstepF c (wstepF c s i) i).workers.get? i =
          some WorkerState.finished) ∧
    (∀ f, s.workers.get? i = some (WorkerState.awaitingRead f) →
      readFileSem c f.path = Except.error e →
      (ioReadF c s i).error = some e ∧
        (ioReadF c s i).workers.get? i = some WorkerState.atTop ∧
        (wstepF c (ioReadF c s i) i).workers.get? i =
          some WorkerState.finished) ∧
    (∀ p, s.workers.get? i = some (WorkerState.awaitingReaddir p) →
      readdirSem c p = Except.error e →
      (ioListF c s i).error = some e ∧
        (ioListF c s i).workers.get? i = some WorkerState.atTop ∧
        (wstepF c (ioListF c s i) i).workers.get? i =
          some WorkerState.finished) := by
  refine ⟨?_, ?_, ?_, ?_, ?_⟩
  · intro p rest hget herr h1 h2 h3 h4 h5 hp
    have hstep : wstepF c s i =
        { s with qDirCheck := rest,
                 ioLog := s.ioLog ++ [IOEvent.evalDirPred p],
                 error := some e, genState := notifyGenF s.genState,
                 workers := s.workers.set i WorkerState.finished } := by
      unfold wstepF
      rw [hget, herr, h1, h2, h3, h4, h5]
      dsimp only
      rw [hp]
      rfl
    rw [hstep]
    exact ⟨rfl, get?_set_self hget _⟩
  · intro r rest hget herr hq hy
    have hstep : wstepF c s i =
        { s with qYieldCheck := rest,
                 ioLog := s.ioLog ++ [IOEvent.evalYieldPred r.path],
                 error := some e, genState := notifyGenF s.genState } := by
      unfold wstepF
      rw [hget, herr, hq]
      dsimp only
      rw [hy]
      rfl
    rw [hstep]
    refine ⟨rfl, hget, ?_⟩
    exact wstep_exit_get hget rfl
  · intro f rest hget herr h1 h2 hq hp
    have hstep : wstepF c s i =
        { s with qFileCheck := rest,
                 ioLog := s.ioLog ++ [IOEvent.evalFilePred f.path],
                 error := some e, genState := notifyGenF s.genState } := by
      unfold wstepF
      rw [hget, herr, h1, h2, hq]
      dsimp only
      rw [hp]
      rfl
    rw [hstep]
    refine ⟨rfl, hget, ?_⟩
    exact wstep_exit_get hget rfl
  · intro f hget hsem
    have hstep : ioReadF c s i =
        { s with error := some e, genState := notifyGenF s.genState,
                 workers := s.workers.set i WorkerState.atTop } := by
      unfold ioReadF
      rw [hget]
      dsimp only
      rw [hsem]
    rw [hstep]
    refine ⟨rfl, get?_set_self hget _, ?_⟩
    exact wstep_exit_get (get?_set_self hget _) rfl
  · intro p hget hsem
    have hstep : ioListF c s i =
        { s with error := some e, genState := notifyGenF s.genState,
                 workers := s.workers.set i WorkerState.atTop } := by
      unfold ioListF
      rw [hget]
      dsimp only
      rw [hsem]
    rw [hstep]
    refine ⟨rfl, get?_set_self hget _, ?_⟩
    exact wstep_exit_get (get?_set_self hget _) rfl

/-- A state whose only pending task is a directory-check on `d`, run under
a throwing directory predicate. -/
def stDirQ : MState :=
  { initState cfgDirThrow 1 with qDirStat := [], qDirCheck := [["d"]] }

theorem c9_error_exit_behavior_witness :
    ((wstepF cfgDirThrow stDirQ 0).error = some "boom" ∧
      (wstepF cfgDirThrow stDirQ 0).workers.get? 0 =
        some WorkerState.finished) :=
  (c9_error_exit_behavior cfgDirThrow stDirQ 0 "boom").1 ["d"] [] rfl rfl rfl
    rfl rfl rfl rfl rfl

/-- C10: on a tree with distinct entry names, a directory entry that is
neither a regular file nor a directory (a symlink, FIFO or socket,
modelled as an `other` node) is silently skipped by every run: its path
never appears in any stage queue, is never in flight with a worker, is
never passed to any predicate, read or listed (the touch log never
mentions it), and is never buffered or yielded. -/
theorem c10_other_entries_skipped (fs : FSNode) (o : ExploreFileArgs)
    (c : Config) (s0 : MState)
    (hinit : exploreFilesInit fs o = Except.ok (c, s0))
    (hnd : nodupB c.fs = true) (acts : List Action) (p : FPath)
    (hother : resolveAt c p = some FSNode.other) (hne : p ≠ c.root) :
    p ∉ (runActions c s0 acts).qDirStat ∧
    p ∉ (runActions c s0 acts).qDirCheck ∧
    (∀ f ∈ (runActions c s0 acts).qFileCheck, f.path ≠ p) ∧
    (∀ f ∈ (runActions c s0 acts).qRead, f.path ≠ p) ∧
    (∀ r ∈ (runActions c s0 acts).qYieldCheck, r.path ≠ p) ∧
    (∀ r ∈ (runActions c s0 acts).outputBuffer, r.path ≠ p) ∧
    (∀ r ∈ (runActions c s0 acts).yielded, r.path ≠ p) ∧
    (∀ w ∈ (runActions c s0 acts).workers,
      w ≠ WorkerState.awaitingRead ⟨p⟩ ∧ w ≠ WorkerState.awaitingReaddir p) ∧
    (∀ ev ∈ (runActions c s0 acts).ioLog, evPath ev ≠ p) := by
  obtain ⟨-, n, rfl⟩ := init_shape hinit
  have hT := typ_runActions c _ acts hnd (typ_init c n)
  refine ⟨?_, ?_, ?_, ?_, ?_, ?_, ?_, ?_, ?_⟩
  · intro hp
    rcases hT.ds p hp with h1 | ⟨d, hd⟩
    · exact hne h1
    · rw [hother] at hd
      exact FSNode.noConfusion (Option.some.inj hd)
  · intro hp
    obtain ⟨d, hd⟩ := hT.dc p hp
    rw [hother] at hd
    exact FSNode.noConfusion (Option.some.inj hd)
  · intro f hf heq
    obtain ⟨ct, hct⟩ := hT.fc f hf
    rw [heq, hother] at hct
    exact FSNode.noConfusion (Option.some.inj hct)
  · intro f hf heq
    obtain ⟨ct, hct⟩ := hT.rd f hf
    rw [heq, hother] at hct
    exact FSNode.noConfusion (Option.some.inj hct)
  · intro r hr heq
    obtain ⟨ct, hct⟩ := hT.yc r hr
    rw [heq, hother] at hct
    exact FSNode.noConfusion (Option.some.inj hct)
  · intro r hr heq
    obtain ⟨ct, hct⟩ := hT.ob r hr
    rw [heq, hother] at hct
    exact FSNode.noConfusion (Option.some.inj hct)
  · intro r hr heq
    obtain ⟨ct, hct⟩ := hT.yl r hr
    rw [heq, hother] at hct
    exact FSNode.noConfusion (Option.some.inj hct)
  · intro w hw
    have hok := hT.wk w hw
    constructor
    · intro hEq
      rw [hEq] at hok
      obtain ⟨ct, hct⟩ := hok
      rw [hother] at hct
      exact FSNode.noConfusion (Option.some.inj hct)
    · intro hEq
      rw [hEq] at hok
      rcases hok with h1 | ⟨d, hd⟩
      · exact hne h1
      · rw [hother] at hd
        exact FSNode.noConfusion (Option.some.inj hd)
  · intro ev hev heq
    have hok := hT.lg ev hev
    cases ev with
    | readdirEv q =>
      simp only [evPath] at heq
      subst heq
      rcases hok with h1 | ⟨d, hd⟩
      · exact hne h1
      · rw [hother] at hd
        exact FSNode.noConfusion (Option.some.inj hd)
    | evalDirPred q =>
      simp only [evPath] at heq
      subst heq
      obtain ⟨d, hd⟩ := hok
      rw [hother] at hd
      exact FSNode.noConfusion (Option.some.inj hd)
    | readFileEv q =>
      simp only [evPath] at heq
      subst heq
      obtain ⟨ct, hct⟩ := hok
      rw [hother] at hct
      exact FSNode.noConfusion (Option.some.inj hct)
    | evalFilePred q =>
      simp only [evPath] at heq
      subst heq
      obtain ⟨ct, hct⟩ := hok
      rw [hother] at hct
      exact FSNode.noConfusion (Option.some.inj hct)
    | evalYieldPred q =>
      simp only [evPath] at heq
      subst heq
      obtain ⟨ct, hct⟩ := hok
      rw [hother] at hct
      exact FSNode.noConfusion (Option.some.inj hct)

theorem c10_other_entries_skipped_witness :
    (["s"] ∉ (runActions cfgOther (initState cfgOther 1)
        [Action.work 0, Action.ioList 0]).qDirStat ∧
      ["s"] ∉ (runActions cfgOther (initState cfgOther 1)
        [Action.work 0, Action.ioList 0]).qDirCheck) :=
  ⟨(c10_other_entries_skipped fsOther oOther cfgOther (initState cfgOther 1)
      rfl rfl [Action.work 0, Action.ioList 0] ["s"] rfl (by decide)).1,
   (c10_other_entries_skipped fsOther oOther cfgOther (initState cfgOther 1)
      rfl rfl [Action.work 0, Action.ioList 0] ["s"] rfl (by decide)).2.1⟩

end FileExplorer
